import Mathlib

/-!
Verification of the org-linter core: a shallow embedding in Lean 4 of the
data model and algorithms in `src/clock.rs`, `src/headline.rs`,
`src/block.rs`, `src/org_document.rs` and `src/clock_conflict.rs`,
together with theorems about the behaviour of that code.

Modelling conventions:
* `NaiveDateTime` is modelled as `Int`, the number of minutes since the epoch
  1970-01-01 00:00 (naive local wall-clock time; chrono stores seconds, but
  every value the program constructs has zero seconds, so minutes lose
  nothing).
* `PathBuf` is modelled as `String`; `PathBuf`'s ordering is modelled by the
  string order.
* chrono's local-time-to-timezone conversion (`and_local_timezone`) is kept
  as an explicit parameter `off : Tz → Int → Int` mapping a wall-clock time
  interpreted in the given zone to an instant on the global timeline, and
  `Local::now()` is passed explicitly as `now : Int`; theorems quantify over
  both wherever the code calls them.
* Rust panics are modelled by `Option`/dedicated result constructors: a
  `none` (or `.panicked`) result marks an execution on which the Rust code
  aborts the process.
* `DefaultHasher` is modelled as injective: `hashme` is modelled by the
  canonical tuple that the `Hash` impl feeds to the hasher, and `PartialEq`
  (defined in the source as equality of those hashes) by equality of the
  tuples.
* A Rust `String` holding file content is represented by its list of lines
  (the result of `str::lines()`); the text the patch applier inserts never
  contains a newline, so `str::lines()` of the rebuilt string is exactly the
  rebuilt line list.
-/

namespace OrgLinter

/-- Minutes since 1970-01-01 00:00, naive wall-clock time (`chrono::NaiveDateTime`). -/
abbrev NaiveDT := Int

/-- The two fixed time zones the program selects between (`chrono_tz::US::Pacific`
and `chrono_tz::Europe::Berlin`). -/
inductive Tz where
  | usPacific
  | europeBerlin
deriving DecidableEq, Repr

/-- `2019-05-01` as a day count since 1970-01-01 (the `TZ_CUTOFF_DATE` constant). -/
def tzCutoffDate : Int := 18017

/-- The date (day count since the epoch) of a naive timestamp, `NaiveDateTime::date`. -/
def dateOfNaive (t : NaiveDT) : Int := t.fdiv 1440

/-- `tz_for_date` from `src/clock.rs`. -/
def tz_for_date (d : Int) : Tz :=
  if d < tzCutoffDate then Tz.usPacific else Tz.europeBerlin

/-- `start_end` from `src/clock.rs`: resolve a clock's naive `start`/`end` to
instants, using the zone chosen by the start's date for both endpoints and
substituting `now` for an absent end.  `off` stands for chrono's
zone-resolution (`and_local_timezone(tz)`); it is a parameter of the model. -/
def start_end (off : Tz → Int → Int) (now : NaiveDT)
    (start : NaiveDT) (endT : Option NaiveDT) : Int × Int :=
  let tz := tz_for_date (dateOfNaive start)
  (off tz start, off tz (endT.getD now))

/-- `TimestampType` from `src/clock.rs`. -/
inductive TimestampType where
  | active
  | inactive
deriving DecidableEq, Repr

/-- `TimestampType::open`. -/
def TimestampType.openChar : TimestampType → Char
  | .active => '<'
  | .inactive => '['

/-- `TimestampType::close`. -/
def TimestampType.closeChar : TimestampType → Char
  | .active => '>'
  | .inactive => ']'

/-- `Clock` from `src/clock.rs`.  The Rust field `end` is called `endTime`
here (`end` is a Lean keyword). -/
structure Clock where
  line : Nat
  parent : Nat
  durationString : Option String
  start : NaiveDT
  endTime : Option NaiveDT
  timestampType : TimestampType
deriving DecidableEq, Repr

/-- `Clock::is_running`. -/
def Clock.is_running (c : Clock) : Bool := c.endTime.isNone

/-- `Clock::duration` (minutes): `end - start` when the end is present, zero
otherwise.  Works on the naive values, exactly as the source does. -/
def Clock.duration (c : Clock) : Int :=
  match c.endTime with
  | none => 0
  | some e => e - c.start

/-- `Clock::overlaps` from `src/clock.rs`. -/
def Clock.overlaps (off : Tz → Int → Int) (now : NaiveDT) (c other : Clock) : Bool :=
  let se := start_end off now c.start c.endTime
  let ose := start_end off now other.start other.endTime
  if se.2 ≤ ose.1 ∨ se.1 ≥ ose.2 then false else true

/-- Left-pad a string to the given width with spaces (Rust's `{:>5}` formatting). -/
def padLeftSpaces (w : Nat) (s : String) : String :=
  String.mk (List.replicate (w - s.length) ' ') ++ s

/-- Zero-pad the decimal representation of a natural number to the given width
(`chrono`'s `%Y`, `%m`, `%d`, `%H`, `%M` format codes). -/
def padZero (w : Nat) (n : Nat) : String :=
  let s := toString n
  String.mk (List.replicate (w - s.length) '0') ++ s

/-- `Clock::duration_formatted`: `H:MM` with a leading `-` for negative durations. -/
def Clock.duration_formatted (c : Clock) : String :=
  let d := c.duration
  let negative := d < 0
  let hours := d.natAbs / 60
  let minutes := d.natAbs % 60
  (if negative then "-" else "") ++ toString hours ++ ":" ++ padZero 2 minutes

/-- Civil date from a day count since 1970-01-01 (proleptic Gregorian
calendar, Howard Hinnant's `civil_from_days` algorithm, which is what chrono
computes); returns `(year, month, day)`. -/
def civilFromDays (z0 : Int) : Int × Int × Int :=
  let z := z0 + 719468
  let era := z.fdiv 146097
  let doe := z - era * 146097
  let yoe := (doe - doe.fdiv 1460 + doe.fdiv 36524 - doe.fdiv 146096).fdiv 365
  let y := yoe + era * 400
  let doy := doe - (365 * yoe + yoe.fdiv 4 - yoe.fdiv 100)
  let mp := (5 * doy + 2).fdiv 153
  let d := doy - (153 * mp + 2).fdiv 5 + 1
  let m := mp + (if mp < 10 then 3 else -9)
  (y + (if m ≤ 2 then 1 else 0), m, d)

/-- Day count since 1970-01-01 of a civil date (Hinnant's `days_from_civil`). -/
def daysFromCivil (y0 m d : Int) : Int :=
  let y := if m ≤ 2 then y0 - 1 else y0
  let era := y.fdiv 400
  let yoe := y - era * 400
  let doy := (153 * (if m > 2 then m - 3 else m + 9) + 2).fdiv 5 + d - 1
  let doe := yoe * 365 + yoe.fdiv 4 - yoe.fdiv 100 + doy
  era * 146097 + doe - 719468

/-- English three-letter weekday abbreviation (chrono's `%a`); day 0 of the
epoch, 1970-01-01, was a Thursday. -/
def weekdayAbbrev (days : Int) : String :=
  match ((days + 4).emod 7).toNat with
  | 0 => "Sun"
  | 1 => "Mon"
  | 2 => "Tue"
  | 3 => "Wed"
  | 4 => "Thu"
  | 5 => "Fri"
  | _ => "Sat"

/-- chrono's `format("%Y-%m-%d %a %H:%M")` on a naive timestamp. -/
def formatNaiveDT (t : NaiveDT) : String :=
  let days := t.fdiv 1440
  let tod := (t - days * 1440).toNat
  let ymd := civilFromDays days
  padZero 4 ymd.1.toNat ++ "-" ++ padZero 2 ymd.2.1.toNat ++ "-" ++
    padZero 2 ymd.2.2.toNat ++ " " ++ weekdayAbbrev days ++ " " ++
    padZero 2 (tod / 60) ++ ":" ++ padZero 2 (tod % 60)

/-- The `Display` impl for `Clock` in `src/clock.rs`. -/
def Clock.display (c : Clock) : String :=
  let o := String.singleton c.timestampType.openChar
  let cl := String.singleton c.timestampType.closeChar
  o ++ formatNaiveDT c.start ++ cl ++
    (match c.endTime with
     | none => ""
     | some e =>
       "--" ++ o ++ formatNaiveDT e ++ cl ++ " => " ++
         padLeftSpaces 5 c.duration_formatted)

/-- `Headline` from `src/headline.rs`. -/
structure Headline where
  line : Nat
  parent : Nat
  level : Nat
  title : String
  tagsString : Option String
deriving DecidableEq, Repr

/-- `FileChange` from `src/clock_conflict.rs`. -/
inductive FileChange where
  | deletedClock (file : String) (clock : Clock)
  | addedClock (file : String) (clock : Clock)
  | updateClock (file : String) (clock : Clock)
deriving DecidableEq, Repr

/-- `FileChange::add`. -/
def FileChange.add (file : String) (clock : Clock) : FileChange :=
  .addedClock file clock

/-- `FileChange::delete`. -/
def FileChange.delete (file : String) (clock : Clock) : FileChange :=
  .deletedClock file clock

/-- `FileChange::update`. -/
def FileChange.update (file : String) (clock : Clock) : FileChange :=
  .updateClock file clock

/-- `FileChange::clock`. -/
def FileChange.clock : FileChange → Clock
  | .deletedClock _ c => c
  | .addedClock _ c => c
  | .updateClock _ c => c

/-- `FileChange::line`. -/
def FileChange.line (fc : FileChange) : Nat := fc.clock.line

/-- `FileChange::file`. -/
def FileChange.file : FileChange → String
  | .deletedClock f _ => f
  | .addedClock f _ => f
  | .updateClock f _ => f

/-- `FileChange::fixup_headline`.  The source mutates the headline or panics;
`none` here models the panic (`"file change modifies line number of headline"`). -/
def FileChange.fixup_headline (fc : FileChange) (headline : Headline) : Option Headline :=
  if headline.line < fc.line then some headline
  else if headline.line = fc.line then none
  else
    match fc with
    | .deletedClock _ _ => some { headline with line := headline.line - 1 }
    | .addedClock _ _ => some { headline with line := headline.line + 1 }
    | .updateClock _ _ => some headline

/-- `FileChange::fixup_clock`.  Here `none` is a genuine result of the source
(the clock's own line was deleted), not a panic. -/
def FileChange.fixup_clock (fc : FileChange) (clock : Clock) : Option Clock :=
  if clock.line < fc.line then some clock
  else
    match fc with
    | .deletedClock _ _ =>
      if clock.line = fc.line then none
      else some { clock with line := clock.line - 1 }
    | .addedClock _ _ => some { clock with line := clock.line + 1 }
    | .updateClock _ _ => some clock

/-- The line of text `modify_file_content` writes for a clock: a leading
`CLOCK: ` followed by the clock's `Display` form. -/
def renderClockLine (c : Clock) : String := "CLOCK: " ++ c.display

/-- The loop body of `FileChange::modify_file_content`: walk the lines with
their 0-based index, and at the target index delete, replace, or insert.
The target is carried as an `Int` because the source computes
`self.line() - 1` in `usize`: for `line = 0` the subtraction wraps around to
`usize::MAX` and matches no line, which `-1 : Int` reproduces. -/
def modifyLoop (fc : FileChange) (target : Int) : Int → List String → List String
  | _, [] => []
  | i, l :: rest =>
    if i = target then
      match fc with
      | .deletedClock _ _ => modifyLoop fc target (i + 1) rest
      | .updateClock _ c => renderClockLine c :: modifyLoop fc target (i + 1) rest
      | .addedClock _ c => renderClockLine c :: l :: modifyLoop fc target (i + 1) rest
    else l :: modifyLoop fc target (i + 1) rest

/-- `FileChange::modify_file_content` on the file content's line list. -/
def FileChange.modify_file_content (fc : FileChange) (content : List String) : List String :=
  modifyLoop fc ((fc.line : Int) - 1) 0 content

/-- The comparator closure passed to `changes.sort_by` in
`FileChange::apply_to_string`. -/
def fcCmp (a b : FileChange) : Ordering :=
  let line1 := a.line
  let line2 := b.line
  if line1 < line2 then .lt
  else if line1 > line2 then .gt
  else
    match a, b with
    | .addedClock _ _, .addedClock _ _ => .eq
    | .addedClock _ _, _ => .lt
    | _, .addedClock _ _ => .gt
    | _, _ => .eq

/-- The total preorder induced by `fcCmp` (`sort_by` orders by `cmp(a,b) != Greater`). -/
def fcLe (a b : FileChange) : Prop := fcCmp a b ≠ Ordering.gt

instance : DecidableRel fcLe := fun a b => by
  unfold fcLe
  infer_instance

/-- Whether a change is an `AddedClock`. -/
def FileChange.isAdd : FileChange → Bool
  | .addedClock _ _ => true
  | _ => false

/-- Whether a change is a `DeletedClock`. -/
def FileChange.isDelete : FileChange → Bool
  | .deletedClock _ _ => true
  | _ => false

/-- The sort key realised by `fcCmp`: two changes compare equal exactly when
both the target line and the `Add`/non-`Add` class coincide. -/
def keyVal (fc : FileChange) : Nat :=
  2 * fc.line + (if fc.isAdd then 0 else 1)

instance : IsTotal FileChange fcLe := by
  constructor
  have key : ∀ a b : FileChange, fcLe a b ↔ keyVal a ≤ keyVal b := by
    intro a b
    cases a <;> cases b <;>
      simp only [fcLe, fcCmp, keyVal, FileChange.isAdd, FileChange.line, FileChange.clock] <;>
      split_ifs <;> simp_all <;> omega
  intro a b
  rcases Nat.le_total (keyVal a) (keyVal b) with h | h
  · exact Or.inl ((key a b).mpr h)
  · exact Or.inr ((key b a).mpr h)

instance : IsTrans FileChange fcLe := by
  constructor
  have key : ∀ a b : FileChange, fcLe a b ↔ keyVal a ≤ keyVal b := by
    intro a b
    cases a <;> cases b <;>
      simp only [fcLe, fcCmp, keyVal, FileChange.isAdd, FileChange.line, FileChange.clock] <;>
      split_ifs <;> simp_all <;> omega
  intro a b c h1 h2
  exact (key a c).mpr (le_trans ((key a b).mp h1) ((key b c).mp h2))

/-- Rust's `Vec::sort_by` is a stable sort by the comparator's total preorder;
a stable sort by a total preorder has a unique result, so the stable
`List.insertionSort` models it exactly.  `apply_to_string` then reverses,
giving descending target lines with an `Add` applied after the other edits at
the same line. -/
def sortedChanges (changes : List FileChange) : List FileChange :=
  (List.insertionSort fcLe changes).reverse

/-- `FileChange::apply_to_string` on the file content's line list. -/
def FileChange.apply_to_string (changes : List FileChange) (content : List String) :
    Except String (List String) :=
  match changes with
  | [] => .ok content
  | _ :: _ =>
    let sorted := sortedChanges changes
    match sorted with
    | [] => .ok content
    | c0 :: rest =>
      if rest.all (fun c => c.file == c0.file) then
        .ok ((c0 :: rest).foldl (fun acc c => c.modify_file_content acc) content)
      else .error "changes don\x27t point to the same file"

/-- `ConflictResolution` from `src/clock_conflict.rs`. -/
inductive ConflictResolution where
  | shrinkEarlier
  | shrinkLater
  | splitContaining
  | removeInner
  | auto
  | skip
deriving DecidableEq, Repr

/-- `ClockConflict` from `src/clock_conflict.rs` (references flattened to values). -/
structure ClockConflict where
  clock1 : Clock
  clock2 : Clock
  headline1 : Headline
  headline2 : Headline
  file1 : String
  file2 : String
deriving DecidableEq, Repr

/-- Lexicographic order on character lists by code point (the model of
`PathBuf`'s `Ord`; the file names in play are ASCII, where path and string
order agree). -/
def charListLt : List Char → List Char → Bool
  | [], [] => false
  | [], _ :: _ => true
  | _ :: _, [] => false
  | a :: as, b :: bs =>
    if a.toNat < b.toNat then true
    else if b.toNat < a.toNat then false
    else charListLt as bs

/-- `PathBuf`'s `<`, modelled on the string representation. -/
def pathLt (a b : String) : Bool := charListLt a.data b.data

/-- The canonical tuple the `Hash` impl for `ClockConflict` feeds to the
hasher: files swapped into `<` order, clocks swapped by `clock1.line <
clock2.line`.  `hashme` and the hash-based `PartialEq` are modelled by this
tuple (`DefaultHasher` modelled as injective). -/
def ClockConflict.canonKey (cc : ClockConflict) : String × String × Clock × Clock :=
  let fs := if pathLt cc.file1 cc.file2 then (cc.file1, cc.file2) else (cc.file2, cc.file1)
  let cs := if cc.clock1.line < cc.clock2.line then (cc.clock1, cc.clock2)
            else (cc.clock2, cc.clock1)
  (fs.1, fs.2, cs.1, cs.2)

/-- Rust `Option<NaiveDateTime>` order: `None` is less than `Some`. -/
def optLt : Option NaiveDT → Option NaiveDT → Bool
  | none, none => false
  | none, some _ => true
  | some _, none => false
  | some a, some b => a < b

/-- Rust `Ord::max` on `Option<NaiveDateTime>`. -/
def optMax (a b : Option NaiveDT) : Option NaiveDT := if optLt a b then b else a

/-- `ClockConflict::resolution_options`. -/
def ClockConflict.resolution_options (cc : ClockConflict) : List ConflictResolution :=
  if cc.file1 = cc.file2 ∧ cc.headline1.line = cc.headline2.line then
    [.auto, .skip]
  else
    let el := if cc.clock1.start ≤ cc.clock2.start then (cc.clock1, cc.clock2)
              else (cc.clock2, cc.clock1)
    if optLt el.1.endTime el.2.endTime then [.shrinkEarlier, .shrinkLater, .skip]
    else [.removeInner, .splitContaining, .skip]

/-- `ClockConflict::resolve`.  `none` models the panics in the source: the
`panic!("invalid resolution ...")` arms and the `.unwrap()` calls on an
absent `end`. -/
def ClockConflict.resolve (cc : ClockConflict) (resolution : ConflictResolution) :
    Option (List FileChange) :=
  if resolution = ConflictResolution.skip then some []
  else if cc.file1 = cc.file2 ∧ cc.headline1.line = cc.headline2.line then
    let kd := if cc.clock1.line ≤ cc.clock2.line then (cc.clock1, cc.clock2)
              else (cc.clock2, cc.clock1)
    let keep := { kd.1 with
                  start := min kd.1.start kd.2.start,
                  endTime := optMax kd.1.endTime kd.2.endTime }
    some [FileChange.update cc.file1 keep, FileChange.delete cc.file2 kd.2]
  else
    let elf := if cc.clock1.start ≤ cc.clock2.start then
                 (cc.clock1, cc.file1, cc.clock2, cc.file2)
               else (cc.clock2, cc.file2, cc.clock1, cc.file1)
    let earlier := elf.1
    let earlierFile := elf.2.1
    let later := elf.2.2.1
    let laterFile := elf.2.2.2
    if optLt earlier.endTime later.endTime then
      match resolution with
      | .shrinkEarlier =>
        some [FileChange.update earlierFile { earlier with endTime := some later.start }]
      | .shrinkLater =>
        match earlier.endTime with
        | some e => some [FileChange.update laterFile { later with start := e }]
        | none => none
      | _ => none
    else
      match resolution with
      | .splitContaining =>
        match later.endTime with
        | some le =>
          some [FileChange.update earlierFile { earlier with endTime := some later.start },
                FileChange.add earlierFile { earlier with start := le }]
        | none => none
      | .removeInner => some [FileChange.delete laterFile later]
      | _ => none

/-- `OrgDocument` from `src/org_document.rs`. -/
structure OrgDocument where
  file : String
  headlines : List Headline
  clocks : List Clock
deriving DecidableEq, Repr

/-- The flattening loop at the start of `ClockConflict::find_conflicts`:
every clock of every document paired with its file and owning headline.
Rust indexes `doc.headlines[clock.parent]` and would panic out of range;
the model totalizes with a default headline that parse-produced documents
never hit. -/
def conflictData (docs : List OrgDocument) : List (String × Headline × Clock) :=
  docs.flatMap fun doc =>
    doc.clocks.map fun clock =>
      (doc.file, (doc.headlines.get? clock.parent).getD ⟨0, 0, 0, "", none⟩, clock)

/-- One candidate inspection step of `ClockConflictIterator::next` folded over
all index pairs `(i, j)` in the lexicographic order of the two nested loops:
emit the conflict when `i ≠ j`, the clocks overlap, and its hash has not been
seen.  The iterator's resumption state (`last_i`, `last_j`) only re-enters
this scan where it left off, and the `seen` set already filters everything
previously emitted, so the concatenation of all `next()` results is exactly
this single pass. -/
def conflictScanStep (off : Tz → Int → Int) (now : NaiveDT)
    (st : List ClockConflict × List (String × String × Clock × Clock))
    (pair : (Nat × (String × Headline × Clock)) × (Nat × (String × Headline × Clock))) :
    List ClockConflict × List (String × String × Clock × Clock) :=
  let i := pair.1.1
  let j := pair.2.1
  let d1 := pair.1.2
  let d2 := pair.2.2
  if i ≠ j ∧ Clock.overlaps off now d1.2.2 d2.2.2 then
    let conflict : ClockConflict :=
      ⟨d1.2.2, d2.2.2, d1.2.1, d2.2.1, d1.1, d2.1⟩
    if conflict.canonKey ∈ st.2 then st
    else (st.1 ++ [conflict], st.2 ++ [conflict.canonKey])
  else st

/-- `ClockConflict::find_conflicts`: the list of conflicts the iterator yields,
in order. -/
def ClockConflict.find_conflicts (off : Tz → Int → Int) (now : NaiveDT)
    (docs : List OrgDocument) : List ClockConflict :=
  let data := conflictData docs
  let pairs := data.enum.flatMap fun di => data.enum.map fun dj => (di, dj)
  (pairs.foldl (conflictScanStep off now) ([], [])).1

/-! ### The line classifiers (the three regexes, modelled directly)

`Regex::captures` searches for the leftmost match anywhere in the line (none
of the three patterns is anchored), with Perl-style leftmost-first
backtracking semantics.  Each pattern below is simple enough that its search
is modelled by a direct scan. -/

/-- Rust regex `\s` (ASCII part: space, tab, newline, carriage return,
vertical tab, form feed; lines contain no `\n`, and non-ASCII whitespace
does not occur in the inputs considered). -/
def rustWs (c : Char) : Bool :=
  c = ' ' ∨ c = '\t' ∨ c = '\n' ∨ c = '\r' ∨ c = '\x0b' ∨ c = '\x0c'

/-- The `TITLE_TAGS_RE` split `(.+?)\s+(:[^\s]+:)\s*$` applied to the raw
title: a match needs a final non-whitespace run `R` that starts and ends
with `:` and has length at least 3 (`:`, one or more non-whitespace, `:`),
preceded by at least one whitespace character, followed only by trailing
whitespace, with a non-empty lazy prefix capture.  When it matches, the
title is the text before the whitespace gap (the lazy `(.+?)` stops at the
earliest position from which the rest matches) and `R` is the tag string. -/
def titleTagsSplit (rawTitle : List Char) : String × Option String :=
  let rs := rawTitle.reverse
  let z := (rs.takeWhile rustWs).length
  let r := (rs.drop z).takeWhile (fun c => ¬ rustWs c)
  let w := ((rs.drop (z + r.length)).takeWhile rustWs).length
  let tagRun := r.reverse
  let gapStart := rawTitle.length - z - r.length - w
  if 3 ≤ tagRun.length ∧ tagRun.head? = some ':' ∧ tagRun.getLast? = some ':' ∧ 1 ≤ w then
    if 1 ≤ gapStart then (String.mk (rawTitle.take gapStart), some (String.mk tagRun))
    else if 2 ≤ w then (String.mk (rawTitle.take 1), some (String.mk tagRun))
    else (String.mk rawTitle, none)
  else (String.mk rawTitle, none)

/-- `TryFrom<&str> for Headline`: search `HEADLINE_RE = (\*+)\s*(.+)` in the
line.  The leftmost match starts at the first `*`; the star run is taken
greedily; `\s*` then yields just enough back for `(.+)` to be non-empty.
When the star run reaches the end of the line, `\*+` backtracks by one star
(needs a run of at least two) and the title is that star.  `none` models the
`Err("Not a headline")` result. -/
def headlineTryFrom (s : String) : Option Headline :=
  let cs := s.data
  let p := cs.findIdx (fun c => c = '*')
  if p < cs.length then
    let rest := cs.drop p
    let run := (rest.takeWhile (fun c => c = '*')).length
    let t := rest.drop run
    if t.isEmpty then
      if 2 ≤ run then
        let ts := titleTagsSplit ['*']
        some ⟨0, 0, run - 1, ts.1, ts.2⟩
      else none
    else
      let w := min ((t.takeWhile rustWs).length) (t.length - 1)
      let ts := titleTagsSplit (t.drop w)
      some ⟨0, 0, run, ts.1, ts.2⟩
  else none

/-- Case-insensitive match of an ASCII pattern as a prefix of `cs`. -/
def ciPrefix : List Char → List Char → Bool
  | [], _ => true
  | _ :: _, [] => false
  | p :: ps, c :: cs => p.toLower = c.toLower ∧ ciPrefix ps cs

/-- `TryFrom<&str> for Block` (`BLOCK_START_RE = (?i)\s*#\+begin_([^\s]+)`):
the captured kind is the maximal non-whitespace run after the first
case-insensitive occurrence of `#+begin_` that is followed by at least one
non-whitespace character. -/
def blockKindScan (pat : List Char) : List Char → Option String
  | [] => none
  | c :: rest =>
    if ciPrefix pat (c :: rest) then
      let kind := ((c :: rest).drop pat.length).takeWhile (fun ch => ¬ rustWs ch)
      if kind.isEmpty then blockKindScan pat rest else some (String.mk kind)
    else blockKindScan pat rest

/-- `Block::try_from` returning the captured kind (the `Err("not a block")`
case is `none`). -/
def blockTryFrom (s : String) : Option String :=
  blockKindScan "#+begin_".data s.data

/-- `BLOCK_END_RE = (?i)\s*#\+end_([^\s]+)` applied to a line. -/
def blockEndKind (s : String) : Option String :=
  blockKindScan "#+end_".data s.data

/-- `Block` from `src/block.rs`. -/
structure Block where
  start_line : Nat
  end_line : Nat
  kind : String
deriving DecidableEq, Repr

/-- `Block::parse_end`: `some` with the end line recorded when the line holds
a matching end marker (the source returns `true` and mutates `end_line`). -/
def Block.parse_end (b : Block) (line : String) (lineNo : Nat) : Option Block :=
  match blockEndKind line with
  | some kind => if kind = b.kind then some { b with end_line := lineNo } else none
  | none => none

/-- Result of `Clock::try_from`: `err` covers both the regex miss and the
date-construction `Err` (the caller treats them alike); `panicked` models the
`.unwrap()` panic on `Local.with_ymd_and_hms(..).single()` for an invalid
calendar date. -/
inductive ClockTry where
  | ok (c : Clock)
  | err
  | panicked
deriving DecidableEq, Repr

/-- Leap year (proleptic Gregorian, chrono's rule). -/
def isLeapYear (y : Nat) : Bool := y % 4 = 0 ∧ (y % 100 ≠ 0 ∨ y % 400 = 0)

/-- Days in a month (1-based month). -/
def daysInMonth (y m : Nat) : Nat :=
  if m = 2 then (if isLeapYear y then 29 else 28)
  else if m = 4 ∨ m = 6 ∨ m = 9 ∨ m = 11 then 30
  else 31

/-- Result of the inner `datetime` helper of `Clock::try_from`. -/
inductive DtResult where
  | ok (t : NaiveDT)
  | errTime
  | panicDate
deriving DecidableEq, Repr

/-- The `datetime` helper of `Clock::try_from`: an invalid calendar date makes
`Local.with_ymd_and_hms(y, m, d, 0, 0, 0).single().unwrap()` panic; a valid
date with an invalid time makes `tz.with_ymd_and_hms(..)` empty, so
`earliest().or(latest())` is `None` and the helper returns an error; a valid
local datetime resolves (earliest interpretation) and `naive_local()` hands
back the same wall-clock fields.  (Zone-transition gaps, which depend on the
tz database, are not modelled; they only turn more lines into errors.) -/
def datetime (y mo dd h mi : Nat) : DtResult :=
  if 1 ≤ mo ∧ mo ≤ 12 ∧ 1 ≤ dd ∧ dd ≤ daysInMonth y mo then
    if h ≤ 23 ∧ mi ≤ 59 then
      .ok (daysFromCivil (y : Int) (mo : Int) (dd : Int) * 1440 + (h : Int) * 60 + (mi : Int))
    else .errTime
  else .panicDate

/-- The numerals captured by one `[..]`/`<..>` timestamp of `CLOCK_RE`,
plus the opening bracket character. -/
structure RawTs where
  openChar : Char
  y : Nat
  mo : Nat
  dd : Nat
  h : Nat
  mi : Nat
deriving DecidableEq, Repr

/-- Parse exactly `n` ASCII digits, returning their value. -/
def takeDigits : Nat → List Char → Option (Nat × List Char)
  | 0, cs => some (0, cs)
  | _ + 1, [] => none
  | n + 1, c :: cs =>
    if c.isDigit then
      match takeDigits n cs with
      | some (v, rest) => some ((c.toNat - '0'.toNat) * 10 ^ n + v, rest)
      | none => none
    else none

/-- Require one specific character. -/
def expectChar (c : Char) : List Char → Option (List Char)
  | [] => none
  | x :: xs => if x = c then some xs else none

/-- Require at least one whitespace character, then skip the run (`\s+`;
greedy with no productive backtracking since what follows is never
whitespace). -/
def skipWs1 : List Char → Option (List Char)
  | [] => none
  | c :: cs => if rustWs c then some (cs.dropWhile rustWs) else none

/-- Require at least one ASCII letter, then skip the run (`(?i)[a-z]+`, the
day-of-week token; greedy with no productive backtracking). -/
def skipAlpha1 : List Char → Option (List Char)
  | [] => none
  | c :: cs => if c.isAlpha then some (cs.dropWhile Char.isAlpha) else none

/-- One timestamp `[\[<]yyyy-mm-dd\s+\w+\s+HH:MM[\]>]` of `CLOCK_RE`
(the regex does not require the closing mark to pair with the opening one). -/
def parseTimestamp (cs : List Char) : Option (RawTs × List Char) :=
  match cs with
  | [] => none
  | b :: cs1 =>
    if b = '[' ∨ b = '<' then
      match takeDigits 4 cs1 with
      | none => none
      | some (y, cs2) =>
        match expectChar '-' cs2 with
        | none => none
        | some cs3 =>
          match takeDigits 2 cs3 with
          | none => none
          | some (mo, cs4) =>
            match expectChar '-' cs4 with
            | none => none
            | some cs5 =>
              match takeDigits 2 cs5 with
              | none => none
              | some (dd, cs6) =>
                match skipWs1 cs6 with
                | none => none
                | some cs7 =>
                  match skipAlpha1 cs7 with
                  | none => none
                  | some cs8 =>
                    match skipWs1 cs8 with
                    | none => none
                    | some cs9 =>
                      match takeDigits 2 cs9 with
                      | none => none
                      | some (h, cs10) =>
                        match expectChar ':' cs10 with
                        | none => none
                        | some cs11 =>
                          match takeDigits 2 cs11 with
                          | none => none
                          | some (mi, cs12) =>
                            match cs12 with
                            | [] => none
                            | e :: cs13 =>
                              if e = ']' ∨ e = '>' then
                                some (⟨b, y, mo, dd, h, mi⟩, cs13)
                              else none
    else none

/-- The optional end-timestamp group `(?:\s*--\s*[\[<]...[\]>])?`: entirely
absent when its interior fails. -/
def parseEndGroup (cs : List Char) : Option (RawTs × List Char) :=
  let cs1 := cs.dropWhile rustWs
  match expectChar '-' cs1 with
  | none => none
  | some cs2 =>
    match expectChar '-' cs2 with
    | none => none
    | some cs3 => parseTimestamp (cs3.dropWhile rustWs)

/-- The optional duration group `(?:\s*=>\s*(-?[0-9]{1,2}:[0-9]{2}))?`,
returning the captured text.  `[0-9]{1,2}` is greedy: two digits are taken
when the colon check still succeeds, otherwise one. -/
def parseDurGroup (cs : List Char) : Option String :=
  let cs1 := cs.dropWhile rustWs
  match expectChar '=' cs1 with
  | none => none
  | some cs2 =>
    match expectChar '>' cs2 with
    | none => none
    | some cs3 =>
      let cs4 := cs3.dropWhile rustWs
      let sign := if cs4.head? = some '-' then "-" else ""
      let cs5 := if cs4.head? = some '-' then cs4.drop 1 else cs4
      match cs5 with
      | d1 :: rest1 =>
        if d1.isDigit then
          match rest1 with
          | d2 :: ':' :: m1 :: m2 :: _ =>
            if d2.isDigit ∧ m1.isDigit ∧ m2.isDigit then
              some (sign ++ String.mk [d1, d2, ':', m1, m2])
            else
              match rest1 with
              | ':' :: n1 :: n2 :: _ =>
                if n1.isDigit ∧ n2.isDigit then some (sign ++ String.mk [d1, ':', n1, n2])
                else none
              | _ => none
          | ':' :: n1 :: n2 :: _ =>
            if n1.isDigit ∧ n2.isDigit then some (sign ++ String.mk [d1, ':', n1, n2])
            else none
          | _ => none
        else none
      | [] => none

/-- Everything of `CLOCK_RE` after the literal `clock:`: the start timestamp
and the two optional groups (each simply skipped when it cannot match; the
regex has no end anchor, so trailing text is ignored). -/
def parseClockTail (cs : List Char) : Option (RawTs × Option RawTs × Option String) :=
  match parseTimestamp (cs.dropWhile rustWs) with
  | none => none
  | some (startTs, cs1) =>
    match parseEndGroup cs1 with
    | some (endTs, cs2) => some (startTs, some endTs, parseDurGroup cs2)
    | none => some (startTs, none, parseDurGroup cs1)

/-- Assemble the `Clock` from the captured numerals, running the `datetime`
helper on start and (when present) end. -/
def buildClock (startTs : RawTs) (endTs : Option RawTs) (dur : Option String) : ClockTry :=
  match datetime startTs.y startTs.mo startTs.dd startTs.h startTs.mi with
  | .panicDate => .panicked
  | .errTime => .err
  | .ok s =>
    match endTs with
    | none =>
      .ok ⟨0, 0, dur, s, none, if startTs.openChar = '<' then .active else .inactive⟩
    | some ets =>
      match datetime ets.y ets.mo ets.dd ets.h ets.mi with
      | .panicDate => .panicked
      | .errTime => .err
      | .ok e =>
        .ok ⟨0, 0, dur, s, some e, if startTs.openChar = '<' then .active else .inactive⟩

/-- The search loop of `Clock::try_from`: try the tail of `CLOCK_RE` after
each case-insensitive occurrence of `clock:` from left to right; the first
occurrence where the regex tail matches is the match (date errors happen
after matching and do not resume the search). -/
def clockScan : List Char → ClockTry
  | [] => .err
  | c :: rest =>
    if ciPrefix "clock:".data (c :: rest) then
      match parseClockTail ((c :: rest).drop 6) with
      | some (s, e, d) => buildClock s e d
      | none => clockScan rest
    else clockScan rest

/-- `TryFrom<&str> for Clock`. -/
def clockTryFrom (s : String) : ClockTry := clockScan s.data

/-! ### The document parser (`src/org_document.rs`) -/

/-- Split a character list at every `\n` (the accumulator holds the current
segment reversed); like `String.splitOn "\n"`, the result always has one
more segment than there are newlines. -/
def rustSplitNl : List Char → List Char → List (List Char)
  | acc, [] => [acc.reverse]
  | acc, '\n' :: rest => acc.reverse :: rustSplitNl [] rest
  | acc, c :: rest => rustSplitNl (c :: acc) rest

/-- Strip one trailing carriage return. -/
def stripCR (l : List Char) : List Char :=
  if l.getLast? = some '\r' then l.dropLast else l

/-- `str::lines()`: split on `\n`, drop the final empty segment produced by a
trailing newline, and strip one `\r` from the end of every `\n`-terminated
segment (a final segment with no newline keeps its `\r`). -/
def rustLines (s : String) : List String :=
  let parts := rustSplitNl [] s.data
  let init := parts.dropLast.map fun l => String.mk (stripCR l)
  match parts.getLast? with
  | some [] => init
  | some last => init ++ [String.mk last]
  | none => []

/-- The loop state of `OrgDocument::parse`.  The Rust `parents` Vec is used
as a stack through `push`/`pop`/`last`; it is modelled head-first (the head
is the top of the stack). -/
structure ParseState where
  headlines : List Headline
  clocks : List Clock
  blocks : List Block
  parents : List (Nat × Nat)
  currentBlock : Option Block
deriving Repr

/-- The headline branch of the parse loop: fill in the line number, pop the
ancestor stack while its top level is `≥` the new level, take the new top
(if any) as the parent, push `(new index, level)`, and append the headline. -/
def pushHeadline (st : ParseState) (lineNo : Nat) (h0 : Headline) : ParseState :=
  let h1 := { h0 with line := lineNo }
  let stack := st.parents.dropWhile fun p => h1.level ≤ p.2
  let h2 := match stack.head? with
            | some (idx, _) => { h1 with parent := idx }
            | none => h1
  { st with
    headlines := st.headlines ++ [h2],
    parents := (st.headlines.length, h1.level) :: stack }

/-- One iteration of the line loop of `OrgDocument::parse`; `none` models the
panic inside `Clock::try_from` on an invalid calendar date. -/
def parseLineStep (st : ParseState) (lineNo : Nat) (line : String) : Option ParseState :=
  match st.currentBlock with
  | some block =>
    match block.parse_end line lineNo with
    | some done => some { st with blocks := st.blocks ++ [done], currentBlock := none }
    | none => some st
  | none =>
    match blockTryFrom line with
    | some kind => some { st with currentBlock := some ⟨lineNo, 0, kind⟩ }
    | none =>
      match headlineTryFrom line with
      | some h0 => some (pushHeadline st lineNo h0)
      | none =>
        match clockTryFrom line with
        | .ok c0 =>
          let c1 := { c0 with line := lineNo }
          match st.parents.head? with
          | some (idx, _) =>
            some { st with clocks := st.clocks ++ [{ c1 with parent := idx }] }
          | none => some st
        | .err => some st
        | .panicked => none

/-- The line loop of `OrgDocument::parse` (line numbers are 1-based). -/
def parseLinesAux : ParseState → Nat → List String → Option ParseState
  | st, _, [] => some st
  | st, n, l :: ls =>
    match parseLineStep st n l with
    | none => none
    | some st1 => parseLinesAux st1 (n + 1) ls

/-- `OrgDocument::parse`; `none` models a panic while parsing. -/
def OrgDocument.parse (file : String) (content : String) : Option OrgDocument :=
  (parseLinesAux ⟨[], [], [], [], none⟩ 1 (rustLines content)).map
    fun st => ⟨file, st.headlines, st.clocks⟩

/-! ### Helper definitions used only to state and prove the theorems -/

/-- The parser-loop invariant tying the ancestor stack to the headline list:
every stack entry points at a headline of the recorded level parsed on an
earlier line; the stack is strictly decreasing in both index and level from
top (head) to bottom; and every parsed headline's parent is either the
default `0` or an earlier headline with strictly smaller level and line. -/
def StackInv (st : ParseState) (n : Nat) : Prop :=
  (∀ e ∈ st.parents, ∃ hh, st.headlines.get? e.1 = some hh ∧ hh.level = e.2 ∧ hh.line < n) ∧
  st.parents.Pairwise (fun a b => b.1 < a.1 ∧ b.2 < a.2) ∧
  ∀ k h, st.headlines.get? k = some h →
    h.parent = 0 ∨ (h.parent < k ∧
      ∃ hp, st.headlines.get? h.parent = some hp ∧ hp.level < h.level ∧ hp.line < h.line)

/-- `modify_file_content` restricted to one 0-based position (the effect of
one edit whose target is in range). -/
def applyAt (fc : FileChange) : Nat → List String → List String
  | _, [] => []
  | 0, l :: rest =>
    match fc with
    | .deletedClock _ _ => rest
    | .updateClock _ c => renderClockLine c :: rest
    | .addedClock _ c => renderClockLine c :: l :: rest
  | n + 1, l :: rest => l :: applyAt fc n rest

/-- The 0-based target positions of the non-`Add` edits of a batch (the lines
the batch destroys or rewrites); a `line = 0` edit targets nothing. -/
def nonAddTargets (cs : List FileChange) : List Nat :=
  (cs.filter fun c => ¬ c.isAdd ∧ 1 ≤ c.line).map fun c => c.line - 1

/-- The sublist of `lines` at the 0-based positions (counted from `i`) *not*
listed in `bad`: the lines a batch must leave intact, in order. -/
def keepFrom (bad : List Nat) : Nat → List String → List String
  | _, [] => []
  | i, l :: ls => if i ∈ bad then keepFrom bad (i + 1) ls else l :: keepFrom bad (i + 1) ls

/-- Two edits "collide" when they target the same line and one of them is a
`Delete` while the other is not an `Add`: the only same-line combinations
whose application can destroy an untargeted line. -/
def delShares (a b : FileChange) : Prop :=
  a.line = b.line ∧
    ((a.isDelete = true ∧ b.isAdd = false) ∨ (b.isDelete = true ∧ a.isAdd = false))

instance (a b : FileChange) : Decidable (delShares a b) := by
  unfold delShares
  infer_instance

/-- Modelled from the spec: the anchored heading grammar `^(MARKER+)\s*(.+)$`
of section 6 — the line must *begin* with one or more `*` markers and (via
`\*+` giving one star back when needed) have at least two characters. -/
def specAnchoredHeadline (s : String) : Bool :=
  s.data.head? = some '*' ∧ 2 ≤ s.data.length

/-- The trivial zone resolution (every wall-clock time is its own instant),
used to instantiate the `off` parameter in concrete examples. -/
def idOff : Tz → Int → Int := fun _ t => t

/-! ### Theorems -/

theorem sortedChanges_perm (cs : List FileChange) : List.Perm (sortedChanges cs) cs :=
  (List.reverse_perm _).trans (List.perm_insertionSort _ _)

theorem optMax_comm (a b : Option NaiveDT) : optMax a b = optMax b a := by
  rcases a with _ | x <;> rcases b with _ | y <;> simp [optMax, optLt]
  rcases lt_trichotomy x y with h | h | h
  · simp [h, not_lt_of_gt h]
  · simp [h]
  · simp [h, not_lt_of_gt h]

/-- Claim C2: `overlaps` treats the clocks as half-open intervals
`[start, end)` over the resolved timeline and returns `true` iff
`¬(end ≤ other.start ∨ start ≥ other.end)`, substituting the current time
for an absent end; for non-degenerate intervals this is exactly non-empty
intersection of the half-open intervals, and an interval that starts exactly
when the other ends (on the resolved timeline) never overlaps it. -/
theorem clock_overlaps_spec :
    (∀ (off : Tz → Int → Int) (now : NaiveDT) (c o : Clock),
      Clock.overlaps off now c o = true ↔
        ¬((start_end off now c.start c.endTime).2 ≤ (start_end off now o.start o.endTime).1 ∨
          (start_end off now c.start c.endTime).1 ≥ (start_end off now o.start o.endTime).2))
    ∧
    (∀ (off : Tz → Int → Int) (now : NaiveDT) (c o : Clock),
      (start_end off now c.start c.endTime).1 < (start_end off now c.start c.endTime).2 →
      (start_end off now o.start o.endTime).1 < (start_end off now o.start o.endTime).2 →
      (Clock.overlaps off now c o = true ↔
        ∃ t : Int,
          (start_end off now c.start c.endTime).1 ≤ t ∧
          t < (start_end off now c.start c.endTime).2 ∧
          (start_end off now o.start o.endTime).1 ≤ t ∧
          t < (start_end off now o.start o.endTime).2))
    ∧
    (∀ (off : Tz → Int → Int) (now : NaiveDT) (c o : Clock),
      c.endTime.isSome = true →
      o.endTime.isSome = true →
      (start_end off now c.start c.endTime).2 = (start_end off now o.start o.endTime).1 →
      Clock.overlaps off now c o = false)
    ∧
    (∀ (off : Tz → Int → Int) (now : NaiveDT) (c o : Clock),
      c.endTime = none →
      Clock.overlaps off now c o =
        Clock.overlaps off now { c with endTime := some now } o) := by
  refine ⟨?_, ?_, ?_, ?_⟩
  · intro off now c o
    simp only [Clock.overlaps]
    split
    · simp_all
    · simp_all
  · intro off now c o hc ho
    simp only [Clock.overlaps]
    split
    · rename_i h
      simp only [Bool.false_eq_true, false_iff]
      rintro ⟨t, h1, h2, h3, h4⟩
      rcases h with h | h <;> omega
    · rename_i h
      simp only [true_iff]
      push_neg at h
      exact ⟨max (start_end off now c.start c.endTime).1
               (start_end off now o.start o.endTime).1, by omega, by omega, by omega, by omega⟩
  · intro off now c o _ _ heq
    simp only [Clock.overlaps]
    split
    · rfl
    · rename_i h
      push_neg at h
      omega
  · intro off now c o hnone
    simp only [Clock.overlaps, start_end, hnone, Option.getD]

/-- Witness for C2: concrete adjacent clocks `[0, 10)` and `[10, 20)` do not
overlap, and the half-open-intersection reading applies to `[0, 10)` and
`[5, 20)`. -/
theorem clock_overlaps_spec_witness :
    Clock.overlaps idOff 0
      ⟨1, 0, none, 0, some 10, .inactive⟩ ⟨2, 0, none, 10, some 20, .inactive⟩ = false ∧
    (Clock.overlaps idOff 0
      ⟨1, 0, none, 0, some 10, .inactive⟩ ⟨2, 0, none, 5, some 20, .inactive⟩ = true ↔
      ∃ t : Int, 0 ≤ t ∧ t < 10 ∧ 5 ≤ t ∧ t < 20) :=
  ⟨clock_overlaps_spec.2.2.1 idOff 0 _ _ rfl rfl (by decide),
   clock_overlaps_spec.2.1 idOff 0 _ _ (by decide) (by decide)⟩

/-- Claim C6: the `fixup_headline`/`fixup_clock` shift rules — an edit
strictly after a record leaves it unchanged; a `Delete` strictly before
shifts it up by one, and at exactly a clock's line removes the clock; an
`Add` at or before a clock (strictly before a headline) shifts it down by
one; an `Update` never moves a clock; and any edit at exactly a headline's
own line is the fatal contract violation (the modelled panic). -/
theorem fixup_shift_rules :
    (∀ (fc : FileChange) (h : Headline), h.line < fc.line → fc.fixup_headline h = some h)
    ∧ (∀ (fc : FileChange) (c : Clock), c.line < fc.line → fc.fixup_clock c = some c)
    ∧ (∀ (f : String) (k : Clock) (h : Headline), k.line < h.line →
        (FileChange.delete f k).fixup_headline h = some { h with line := h.line - 1 })
    ∧ (∀ (f : String) (k c : Clock), k.line < c.line →
        (FileChange.delete f k).fixup_clock c = some { c with line := c.line - 1 })
    ∧ (∀ (f : String) (k c : Clock), k.line = c.line →
        (FileChange.delete f k).fixup_clock c = none)
    ∧ (∀ (f : String) (k : Clock) (h : Headline), k.line < h.line →
        (FileChange.add f k).fixup_headline h = some { h with line := h.line + 1 })
    ∧ (∀ (f : String) (k c : Clock), k.line ≤ c.line →
        (FileChange.add f k).fixup_clock c = some { c with line := c.line + 1 })
    ∧ (∀ (f : String) (k c : Clock), (FileChange.update f k).fixup_clock c = some c)
    ∧ (∀ (f : String) (k : Clock) (h : Headline), h.line ≠ k.line →
        (FileChange.update f k).fixup_headline h = some h)
    ∧ (∀ (fc : FileChange) (h : Headline), h.line = fc.line → fc.fixup_headline h = none) := by
  refine ⟨?_, ?_, ?_, ?_, ?_, ?_, ?_, ?_, ?_, ?_⟩
  · intro fc h hlt
    simp [FileChange.fixup_headline, hlt]
  · intro fc c hlt
    cases fc <;> simp [FileChange.fixup_clock, hlt]
  · intro f k h hlt
    have h1 : ¬ h.line < k.line := by omega
    have h2 : ¬ h.line = k.line := by omega
    simp [FileChange.fixup_headline, FileChange.delete, FileChange.line, FileChange.clock, h1, h2]
  · intro f k c hlt
    have h1 : ¬ c.line < k.line := by omega
    have h2 : ¬ c.line = k.line := by omega
    simp [FileChange.fixup_clock, FileChange.delete, FileChange.line, FileChange.clock, h1, h2]
  · intro f k c heq
    simp [FileChange.fixup_clock, FileChange.delete, FileChange.line, FileChange.clock, heq]
  · intro f k h hlt
    have h1 : ¬ h.line < k.line := by omega
    have h2 : ¬ h.line = k.line := by omega
    simp [FileChange.fixup_headline, FileChange.add, FileChange.line, FileChange.clock, h1, h2]
  · intro f k c hle
    have h1 : ¬ c.line < k.line := by omega
    simp [FileChange.fixup_clock, FileChange.add, FileChange.line, FileChange.clock, h1]
  · intro f k c
    by_cases hlt : c.line < k.line <;>
      simp [FileChange.fixup_clock, FileChange.update, FileChange.line, FileChange.clock, hlt]
  · intro f k h hne
    by_cases hlt : h.line < k.line <;>
      simp [FileChange.fixup_headline, FileChange.update, FileChange.line, FileChange.clock,
            hlt, hne]
  · intro fc h heq
    simp [FileChange.fixup_headline, heq]

/-- Witness for C6: the shift rules applied at concrete records and edits. -/
theorem fixup_shift_rules_witness :
    (FileChange.update "f" ⟨9, 0, none, 0, none, .inactive⟩).fixup_headline
        ⟨4, 0, 1, "t", none⟩ = some ⟨4, 0, 1, "t", none⟩ ∧
    (FileChange.update "f" ⟨9, 0, none, 0, none, .inactive⟩).fixup_clock
        ⟨4, 0, none, 0, none, .inactive⟩ = some ⟨4, 0, none, 0, none, .inactive⟩ ∧
    (FileChange.delete "f" ⟨3, 0, none, 0, none, .inactive⟩).fixup_headline
        ⟨7, 0, 1, "t", none⟩ = some ⟨6, 0, 1, "t", none⟩ ∧
    (FileChange.delete "f" ⟨3, 0, none, 0, none, .inactive⟩).fixup_clock
        ⟨7, 0, none, 0, none, .inactive⟩ = some ⟨6, 0, none, 0, none, .inactive⟩ ∧
    (FileChange.delete "f" ⟨7, 0, none, 0, none, .inactive⟩).fixup_clock
        ⟨7, 1, none, 5, none, .active⟩ = none ∧
    (FileChange.add "f" ⟨3, 0, none, 0, none, .inactive⟩).fixup_headline
        ⟨7, 0, 1, "t", none⟩ = some ⟨8, 0, 1, "t", none⟩ ∧
    (FileChange.add "f" ⟨7, 0, none, 0, none, .inactive⟩).fixup_clock
        ⟨7, 1, none, 5, none, .active⟩ = some ⟨8, 1, none, 5, none, .active⟩ ∧
    (FileChange.update "f" ⟨7, 0, none, 0, none, .inactive⟩).fixup_clock
        ⟨7, 1, none, 5, none, .active⟩ = some ⟨7, 1, none, 5, none, .active⟩ ∧
    (FileChange.update "f" ⟨9, 0, none, 0, none, .inactive⟩).fixup_headline
        ⟨7, 0, 1, "t", none⟩ = some ⟨7, 0, 1, "t", none⟩ ∧
    (FileChange.add "f" ⟨7, 0, none, 0, none, .inactive⟩).fixup_headline
        ⟨7, 0, 1, "t", none⟩ = none :=
  ⟨fixup_shift_rules.1 _ _ (by decide),
   fixup_shift_rules.2.1 _ _ (by decide),
   fixup_shift_rules.2.2.1 _ _ _ (by decide),
   fixup_shift_rules.2.2.2.1 _ _ _ (by decide),
   fixup_shift_rules.2.2.2.2.1 _ _ _ (by decide),
   fixup_shift_rules.2.2.2.2.2.1 _ _ _ (by decide),
   fixup_shift_rules.2.2.2.2.2.2.1 _ _ _ (by decide),
   fixup_shift_rules.2.2.2.2.2.2.2.1 _ _ _,
   fixup_shift_rules.2.2.2.2.2.2.2.2.1 _ _ _ (by decide),
   fixup_shift_rules.2.2.2.2.2.2.2.2.2 _ _ (by decide)⟩

/-- Claim C8: for a conflict whose earlier clock is running, `ShrinkLater` is
among the offered `resolution_options()` (the absent end orders below any
present end, classifying the shape as non-nested), yet `resolve(ShrinkLater)`
unwraps the absent end and panics (modelled as `none`): `resolve` is not
panic-free on `resolution_options()`. -/
theorem resolve_running_shrink_later_panics :
    Clock.overlaps idOff 400
      ⟨2, 0, none, 100, none, .inactive⟩ ⟨4, 1, none, 200, some 300, .inactive⟩ = true ∧
    ConflictResolution.shrinkLater ∈
      (ClockConflict.mk ⟨2, 0, none, 100, none, .inactive⟩ ⟨4, 1, none, 200, some 300, .inactive⟩
        ⟨1, 0, 1, "a", none⟩ ⟨3, 0, 1, "b", none⟩ "a.org" "a.org").resolution_options ∧
    (ClockConflict.mk ⟨2, 0, none, 100, none, .inactive⟩ ⟨4, 1, none, 200, some 300, .inactive⟩
        ⟨1, 0, 1, "a", none⟩ ⟨3, 0, 1, "b", none⟩ "a.org" "a.org").resolve .shrinkLater
      = none := by
  refine ⟨?_, ?_, ?_⟩ <;> decide

/-- Claim C10: `apply_to_string` recoverably errors exactly when the batch
holds two edits targeting different files (the model is a total function:
there is no panic), and the empty batch returns the input unchanged. -/
theorem apply_to_string_batch_contract :
    (∀ content : List String, FileChange.apply_to_string [] content = Except.ok content)
    ∧
    (∀ (changes : List FileChange) (content : List String),
      FileChange.apply_to_string changes content =
          Except.error "changes don\x27t point to the same file" ↔
        ∃ a ∈ changes, ∃ b ∈ changes, a.file ≠ b.file) := by
  constructor
  · intro content
    rfl
  · intro changes content
    match changes with
    | [] =>
      simp [FileChange.apply_to_string]
    | ch :: chs =>
      have hperm := sortedChanges_perm (ch :: chs)
      rcases hs : sortedChanges (ch :: chs) with _ | ⟨c0, rest⟩
      · rw [hs] at hperm
        exact absurd hperm.length_eq (by simp)
      · rw [hs] at hperm
        simp only [FileChange.apply_to_string, hs]
        by_cases hall : rest.all (fun c => c.file == c0.file)
        · simp only [hall, if_true]
          constructor
          · intro h
            exact absurd h (by simp)
          · rintro ⟨a, ha, b, hb, hne⟩
            exfalso
            have hmem : ∀ x ∈ ch :: chs, x.file = c0.file := by
              intro x hx
              have hx2 : x ∈ c0 :: rest := hperm.mem_iff.mpr hx
              rcases List.mem_cons.mp hx2 with heq | hxr
              · rw [heq]
              · have := List.all_eq_true.mp hall _ hxr
                exact eq_of_beq this
            exact hne ((hmem a ha).trans (hmem b hb).symm)
        · simp only [hall, if_false]
          constructor
          · intro _
            rcases List.all_eq_false.mp (Bool.eq_false_iff.mpr hall) with ⟨x, hx, hxne⟩
            refine ⟨x, hperm.mem_iff.mp (by simp [hx]), c0, hperm.mem_iff.mp (by simp), ?_⟩
            simpa using hxne
          · intro _
            rfl

/-- Witness for C10: a mismatched two-file batch errors; the same two edits
pointed at one file succeed. -/
theorem apply_to_string_batch_contract_witness :
    FileChange.apply_to_string
        [FileChange.update "a.org" ⟨1, 0, none, 0, some 5, .inactive⟩,
         FileChange.delete "b.org" ⟨2, 0, none, 0, some 5, .inactive⟩] ["x", "y"] =
      Except.error "changes don\x27t point to the same file" ∧
    FileChange.apply_to_string [] (["x", "y"] : List String) = Except.ok ["x", "y"] :=
  ⟨(apply_to_string_batch_contract.2 _ _).mpr
     ⟨FileChange.update "a.org" ⟨1, 0, none, 0, some 5, .inactive⟩, by decide,
      FileChange.delete "b.org" ⟨2, 0, none, 0, some 5, .inactive⟩, by decide, by decide⟩,
   apply_to_string_batch_contract.1 ["x", "y"]⟩

/-- Claim C5: on a same-file same-heading conflict, `resolve(Auto)` produces
exactly two edits: an `Update` keeping the clock with the smaller line
number with its start widened to the minimum of both starts and its end to
the maximum of both ends, and a `Delete` of the other clock. -/
theorem resolve_auto_merges (cc : ClockConflict)
    (hf : cc.file1 = cc.file2) (hh : cc.headline1.line = cc.headline2.line) :
    cc.resolve .auto =
      some [FileChange.update cc.file1
              { (if cc.clock1.line ≤ cc.clock2.line then cc.clock1 else cc.clock2) with
                start := min cc.clock1.start cc.clock2.start,
                endTime := optMax cc.clock1.endTime cc.clock2.endTime },
            FileChange.delete cc.file2
              (if cc.clock1.line ≤ cc.clock2.line then cc.clock2 else cc.clock1)] := by
  simp only [ClockConflict.resolve, reduceCtorEq, if_false, hf, hh, and_self, if_true]
  by_cases hle : cc.clock1.line ≤ cc.clock2.line
  · simp [hle]
  · simp [hle, min_comm cc.clock2.start cc.clock1.start,
          optMax_comm cc.clock2.endTime cc.clock1.endTime]

/-- Witness for C5: the spec's scenario — clocks `10:45–10:55` (line 3) and
`10:40–10:50` (line 4) of 2022-12-12 under one heading merge into a single
clock `10:40–10:55` on line 3, whose rendered duration is `0:15`, with the
line-4 clock deleted. -/
theorem resolve_auto_merges_witness :
    (ClockConflict.mk
        ⟨3, 0, some "0:10", 19338 * 1440 + 645, some (19338 * 1440 + 655), .inactive⟩
        ⟨4, 0, some "0:10", 19338 * 1440 + 640, some (19338 * 1440 + 650), .inactive⟩
        ⟨2, 0, 1, "fooo", none⟩ ⟨2, 0, 1, "fooo", none⟩ "test.org" "test.org").resolve
        .auto =
      some [FileChange.update "test.org"
              ⟨3, 0, some "0:10", 19338 * 1440 + 640, some (19338 * 1440 + 655), .inactive⟩,
            FileChange.delete "test.org"
              ⟨4, 0, some "0:10", 19338 * 1440 + 640, some (19338 * 1440 + 650), .inactive⟩] ∧
    Clock.duration_formatted
        ⟨3, 0, some "0:10", 19338 * 1440 + 640, some (19338 * 1440 + 655), .inactive⟩ =
      "0:15" :=
  ⟨(resolve_auto_merges _ rfl rfl).trans (by decide), by decide⟩

theorem fcLe_iff_keyVal (a b : FileChange) : fcLe a b ↔ keyVal a ≤ keyVal b := by
  cases a <;> cases b <;>
    simp only [fcLe, fcCmp, keyVal, FileChange.isAdd, FileChange.line, FileChange.clock] <;>
    split_ifs <;> simp_all <;> omega

/-- Two sorted lists that are permutations of each other are equal, when any
two entries with the same sort key are themselves equal. -/
theorem sorted_perm_key_eq :
    ∀ {l₁ l₂ : List FileChange}, List.Perm l₁ l₂ →
      l₁.Pairwise fcLe → l₂.Pairwise fcLe →
      (∀ a ∈ l₁, ∀ b ∈ l₁, keyVal a = keyVal b → a = b) → l₁ = l₂ := by
  intro l₁
  induction l₁ with
  | nil => intro l₂ hp _ _ _; exact (List.Perm.nil_eq hp).symm ▸ rfl
  | cons a t₁ ih =>
    intro l₂ hp hs₁ hs₂ hkey
    rcases l₂ with _ | ⟨b, t₂⟩
    · exact absurd hp.length_eq (by simp)
    · have hb₁ : b ∈ a :: t₁ := hp.mem_iff.mpr (by simp)
      have hab : a = b := by
        rcases List.mem_cons.mp hb₁ with h | h
        · exact h.symm
        · have h1 : fcLe a b := (List.pairwise_cons.mp hs₁).1 b h
          have ha₂ : a ∈ b :: t₂ := hp.mem_iff.mp (by simp)
          have h2 : fcLe b a := by
            rcases List.mem_cons.mp ha₂ with h' | h'
            · rw [h']
              exact (fcLe_iff_keyVal b b).mpr le_rfl
            · exact (List.pairwise_cons.mp hs₂).1 a h'
          exact hkey a (by simp) b hb₁
            (le_antisymm ((fcLe_iff_keyVal a b).mp h1) ((fcLe_iff_keyVal b a).mp h2))
      subst hab
      have ht : t₁ = t₂ :=
        ih hp.cons_inv (List.pairwise_cons.mp hs₁).2 (List.pairwise_cons.mp hs₂).2
          (fun x hx y hy h => hkey x (by simp [hx]) y (by simp [hy]) h)
      rw [ht]

/-- Claim C4 (amended): for a batch in which no two different edits share
both their target line and their `Add`/non-`Add` class, `apply_to_string`
returns the same output for every submission order of the batch: the
mandatory sort (line descending; an `Add` sorting before other edit kinds at
the same line, hence applied after them) makes the applied order independent
of the submitted order. -/
theorem apply_to_string_order_independent (cs₁ cs₂ : List FileChange) (content : List String)
    (hperm : List.Perm cs₁ cs₂)
    (hkey : ∀ a ∈ cs₁, ∀ b ∈ cs₁, keyVal a = keyVal b → a = b) :
    FileChange.apply_to_string cs₁ content = FileChange.apply_to_string cs₂ content := by
  have hsorted : sortedChanges cs₁ = sortedChanges cs₂ := by
    have h1 : List.Perm (List.insertionSort fcLe cs₁) (List.insertionSort fcLe cs₂) :=
      ((List.perm_insertionSort fcLe cs₁).trans hperm).trans
        (List.perm_insertionSort fcLe cs₂).symm
    have heq : List.insertionSort fcLe cs₁ = List.insertionSort fcLe cs₂ := by
      refine sorted_perm_key_eq h1 (List.sorted_insertionSort fcLe cs₁)
        (List.sorted_insertionSort fcLe cs₂) ?_
      intro x hx y hy h
      exact hkey x ((List.perm_insertionSort fcLe cs₁).mem_iff.mp hx)
        y ((List.perm_insertionSort fcLe cs₁).mem_iff.mp hy) h
    unfold sortedChanges
    rw [heq]
  rcases cs₁ with _ | ⟨c₁, t₁⟩
  · have : cs₂ = [] := hperm.nil_eq.symm
    rw [this]
  · rcases cs₂ with _ | ⟨c₂, t₂⟩
    · exact absurd hperm.length_eq (by simp)
    · simp only [FileChange.apply_to_string, hsorted]

/-- Witness for C4: the `SplitContaining`-shaped batch (an `Update` and an
`Add` at the same line) applied in both submission orders gives the same
result. -/
theorem apply_to_string_order_independent_witness :
    FileChange.apply_to_string
        [FileChange.update "f" ⟨2, 0, none, 0, some 5, .inactive⟩,
         FileChange.add "f" ⟨2, 0, none, 7, some 9, .inactive⟩] ["a", "b", "c"] =
      FileChange.apply_to_string
        [FileChange.add "f" ⟨2, 0, none, 7, some 9, .inactive⟩,
         FileChange.update "f" ⟨2, 0, none, 0, some 5, .inactive⟩] ["a", "b", "c"] :=
  apply_to_string_order_independent _ _ _ (List.Perm.swap _ _ _) (by decide)

theorem keepFrom_nil (i : Nat) (ls : List String) : keepFrom [] i ls = ls := by
  induction ls generalizing i with
  | nil => rfl
  | cons l rest ih => simp [keepFrom, ih]

theorem keepFrom_append (bad : List Nat) (i : Nat) (xs ys : List String) :
    keepFrom bad i (xs ++ ys) = keepFrom bad i xs ++ keepFrom bad (i + xs.length) ys := by
  induction xs generalizing i with
  | nil => simp [keepFrom]
  | cons x rest ih =>
    simp only [List.cons_append, keepFrom, List.length_cons, List.append_eq]
    rw [ih (i + 1), show i + 1 + rest.length = i + (rest.length + 1) from by omega]
    split <;> simp

theorem keepFrom_all_lt (bad : List Nat) (i : Nat) (xs : List String)
    (h : ∀ p ∈ bad, p < i) : keepFrom bad i xs = xs := by
  induction xs generalizing i with
  | nil => rfl
  | cons x rest ih =>
    have hni : i ∉ bad := fun hmem => absurd (h i hmem) (lt_irrefl i)
    simp only [keepFrom, if_neg hni]
    rw [ih (i + 1) (fun p hp => Nat.lt_succ_of_lt (h p hp))]

theorem keepFrom_cons_sublist (b : Nat) (bad : List Nat) (i : Nat) (xs : List String) :
    List.Sublist (keepFrom (b :: bad) i xs) (keepFrom bad i xs) := by
  induction xs generalizing i with
  | nil => exact List.Sublist.refl _
  | cons x rest ih =>
    simp only [keepFrom]
    by_cases hib : i ∈ bad
    · rw [if_pos hib, if_pos (List.mem_cons_of_mem b hib)]
      exact ih (i + 1)
    · rw [if_neg hib]
      by_cases hbi : i = b
      · rw [if_pos (by rw [hbi]; exact List.mem_cons_self _ _)]
        exact (ih (i + 1)).trans (List.sublist_cons_self _ _)
      · rw [if_neg (by simp [List.mem_cons, hbi, hib])]
        exact List.Sublist.cons₂ _ (ih (i + 1))

theorem keepFrom_congr (bad bad2 : List Nat) (i : Nat) (xs : List String)
    (h : ∀ p, p ∈ bad ↔ p ∈ bad2) : keepFrom bad i xs = keepFrom bad2 i xs := by
  induction xs generalizing i with
  | nil => rfl
  | cons x rest ih =>
    simp only [keepFrom]
    by_cases hib : i ∈ bad
    · rw [if_pos hib, if_pos ((h i).mp hib), ih]
    · rw [if_neg hib, if_neg (fun hx => hib ((h i).mpr hx)), ih]

theorem applyAt_oob (fc : FileChange) (n : Nat) (ls : List String)
    (h : ls.length ≤ n) : applyAt fc n ls = ls := by
  induction ls generalizing n with
  | nil => cases n <;> rfl
  | cons l rest ih =>
    cases n with
    | zero => simp at h
    | succ m =>
      simp only [applyAt]
      rw [ih m (by simpa using h)]

theorem applyAt_delete (f : String) (k : Clock) (n : Nat) (ls : List String)
    (h : n < ls.length) :
    applyAt (.deletedClock f k) n ls = ls.take n ++ ls.drop (n + 1) := by
  induction ls generalizing n with
  | nil => simp at h
  | cons l rest ih =>
    cases n with
    | zero => simp [applyAt]
    | succ m =>
      simp only [applyAt, List.take_succ_cons, List.drop_succ_cons, List.cons_append]
      rw [ih m (by simpa using h)]

theorem applyAt_update (f : String) (k : Clock) (n : Nat) (ls : List String)
    (h : n < ls.length) :
    applyAt (.updateClock f k) n ls = ls.take n ++ renderClockLine k :: ls.drop (n + 1) := by
  induction ls generalizing n with
  | nil => simp at h
  | cons l rest ih =>
    cases n with
    | zero => simp [applyAt]
    | succ m =>
      simp only [applyAt, List.take_succ_cons, List.drop_succ_cons, List.cons_append]
      rw [ih m (by simpa using h)]

theorem applyAt_add (f : String) (k : Clock) (n : Nat) (ls : List String)
    (h : n < ls.length) :
    applyAt (.addedClock f k) n ls = ls.take n ++ renderClockLine k :: ls.drop n := by
  induction ls generalizing n with
  | nil => simp at h
  | cons l rest ih =>
    cases n with
    | zero => simp [applyAt]
    | succ m =>
      simp only [applyAt, List.take_succ_cons, List.drop_succ_cons, List.cons_append]
      rw [ih m (by simpa using h)]

theorem modifyLoop_lt (fc : FileChange) (t i : Int) (ls : List String) (h : t < i) :
    modifyLoop fc t i ls = ls := by
  induction ls generalizing i with
  | nil => rfl
  | cons l rest ih =>
    have hne : i ≠ t := by omega
    simp only [modifyLoop, if_neg hne]
    rw [ih (i + 1) (by omega)]

theorem modifyLoop_eq_applyAt (fc : FileChange) (n : Nat) (i : Int) (ls : List String) :
    modifyLoop fc (i + n) i ls = applyAt fc n ls := by
  induction ls generalizing n i with
  | nil => simp [modifyLoop, applyAt]
  | cons l rest ih =>
    cases n with
    | zero =>
      simp only [Nat.cast_zero, add_zero, modifyLoop, if_pos rfl, applyAt]
      cases fc <;> simp [modifyLoop_lt _ i (i + 1) rest (by omega)]
    | succ m =>
      have hne : i ≠ i + ((m + 1 : Nat) : Int) := by push_cast; omega
      simp only [modifyLoop, applyAt, if_neg hne]
      have harith : i + ((m + 1 : Nat) : Int) = (i + 1) + (m : Int) := by push_cast; ring
      rw [harith, ih m (i + 1)]

theorem modify_file_content_eq (fc : FileChange) (ls : List String) (h : 1 ≤ fc.line) :
    fc.modify_file_content ls = applyAt fc (fc.line - 1) ls := by
  unfold FileChange.modify_file_content
  have : (fc.line : Int) - 1 = 0 + ((fc.line - 1 : Nat) : Int) := by
    omega
  rw [this, modifyLoop_eq_applyAt]

theorem modify_file_content_zero (fc : FileChange) (ls : List String) (h : fc.line = 0) :
    fc.modify_file_content ls = ls := by
  unfold FileChange.modify_file_content
  rw [h]
  exact modifyLoop_lt _ _ _ _ (by omega)

theorem nonAddTargets_cons_add (f : String) (k : Clock) (cs : List FileChange) :
    nonAddTargets (.addedClock f k :: cs) = nonAddTargets cs := by
  simp [nonAddTargets, List.filter_cons, FileChange.isAdd]

theorem nonAddTargets_cons_zero (c : FileChange) (cs : List FileChange) (h : c.line = 0) :
    nonAddTargets (c :: cs) = nonAddTargets cs := by
  simp [nonAddTargets, List.filter_cons, h]

theorem nonAddTargets_cons_nonadd (c : FileChange) (cs : List FileChange)
    (h1 : c.isAdd = false) (h2 : 1 ≤ c.line) :
    nonAddTargets (c :: cs) = (c.line - 1) :: nonAddTargets cs := by
  simp [nonAddTargets, List.filter_cons, h1, h2]

theorem nonAddTargets_mem (cs : List FileChange) (p : Nat) (hp : p ∈ nonAddTargets cs) :
    ∃ e ∈ cs, e.isAdd = false ∧ 1 ≤ e.line ∧ p = e.line - 1 := by
  simp only [nonAddTargets, List.mem_map, List.mem_filter, decide_eq_true_eq] at hp
  obtain ⟨e, ⟨he, hna, hl⟩, hpe⟩ := hp
  exact ⟨e, he, by simpa using hna, hl, hpe.symm⟩

theorem delShares_symm (a b : FileChange) : delShares a b ↔ delShares b a := by
  unfold delShares
  constructor <;> rintro ⟨h1, h2 | h2⟩ <;>
    first
      | exact ⟨h1.symm, Or.inr h2⟩
      | exact ⟨h1.symm, Or.inl h2⟩

theorem keepFrom_take_cons_drop (B : List Nat) (n : Nat) (ls : List String)
    (hrange : n < ls.length) (hmem : n ∈ B) (hbound : ∀ p ∈ B, p < n + 1) :
    keepFrom B 0 ls = keepFrom B 0 (ls.take n) ++ ls.drop (n + 1) := by
  have hlentake : (ls.take n).length = n := by
    rw [List.length_take]
    omega
  conv_lhs => rw [← List.take_append_drop n ls, List.drop_eq_getElem_cons hrange]
  rw [keepFrom_append, hlentake]
  simp only [Nat.zero_add, keepFrom, if_pos hmem]
  rw [keepFrom_all_lt _ (n + 1) _ hbound]

/-- The single-step frame fact: applying the edit with the largest sort key
first, the lines that the remaining (smaller) edits must keep are still
present, in order, in the modified text. -/
theorem frame_step (c : FileChange) (cs : List FileChange) (ls : List String)
    (hb : ∀ e ∈ cs, fcLe e c)
    (hsh : ∀ e ∈ cs, ¬ delShares c e) :
    List.Sublist (keepFrom (nonAddTargets (c :: cs)) 0 ls)
      (keepFrom (nonAddTargets cs) 0 (c.modify_file_content ls)) := by
  have hle : c.isAdd = false → ∀ p ∈ nonAddTargets cs, p + 1 ≤ c.line := by
    intro hna p hp
    obtain ⟨e, he, hena, hel, hpe⟩ := nonAddTargets_mem cs p hp
    have hk := (fcLe_iff_keyVal e c).mp (hb e he)
    simp [keyVal, hena, hna] at hk
    omega
  have hlt_add : c.isAdd = true → ∀ p ∈ nonAddTargets cs, p + 2 ≤ c.line := by
    intro hna p hp
    obtain ⟨e, he, hena, hel, hpe⟩ := nonAddTargets_mem cs p hp
    have hk := (fcLe_iff_keyVal e c).mp (hb e he)
    simp [keyVal, hena, hna] at hk
    omega
  have hlt_del : c.isDelete = true → ∀ p ∈ nonAddTargets cs, p + 2 ≤ c.line := by
    intro hdel p hp
    obtain ⟨e, he, hena, hel, hpe⟩ := nonAddTargets_mem cs p hp
    have hna : c.isAdd = false := by
      cases c <;> simp_all [FileChange.isDelete, FileChange.isAdd]
    have hk := (fcLe_iff_keyVal e c).mp (hb e he)
    simp [keyVal, hena, hna] at hk
    have hne : c.line ≠ e.line := fun hlineq =>
      hsh e he ⟨hlineq, Or.inl ⟨hdel, hena⟩⟩
    omega
  rcases c with ⟨f, k⟩ | ⟨f, k⟩ | ⟨f, k⟩
  · -- Delete
    have hplt : ∀ p ∈ nonAddTargets cs, p + 2 ≤ k.line := hlt_del rfl
    rcases hkl : k.line with _ | n
    · rw [modify_file_content_zero (.deletedClock f k) ls hkl,
          nonAddTargets_cons_zero (.deletedClock f k) cs hkl]
    · rw [nonAddTargets_cons_nonadd (.deletedClock f k) cs rfl
            (show 1 ≤ (FileChange.deletedClock f k).line from by
              show 1 ≤ k.line
              omega)]
      rw [modify_file_content_eq (.deletedClock f k) ls
            (show 1 ≤ (FileChange.deletedClock f k).line from by
              show 1 ≤ k.line
              omega)]
      simp only [FileChange.line, FileChange.clock, hkl, Nat.add_sub_cancel]
      by_cases hrange : n < ls.length
      · rw [applyAt_delete f k n ls hrange]
        rw [show keepFrom (nonAddTargets cs) 0 (ls.take n ++ ls.drop (n + 1)) =
              keepFrom (nonAddTargets cs) 0 (ls.take n) ++ ls.drop (n + 1) from by
            rw [keepFrom_append, show (ls.take n).length = n from by rw [List.length_take]; omega,
                Nat.zero_add,
                keepFrom_all_lt _ n _ (fun p hp => by have := hplt p hp; omega)]]
        rw [keepFrom_take_cons_drop _ n ls hrange (List.mem_cons_self _ _)
            (fun p hp => by
              rcases List.mem_cons.mp hp with h | h
              · omega
              · have := hplt p h; omega)]
        exact List.Sublist.append (keepFrom_cons_sublist _ _ _ _) (List.Sublist.refl _)
      · rw [applyAt_oob _ _ _ (by omega)]
        exact keepFrom_cons_sublist _ _ _ _
  · -- Add
    have hplt : ∀ p ∈ nonAddTargets cs, p + 2 ≤ k.line := hlt_add rfl
    rw [nonAddTargets_cons_add]
    rcases hkl : k.line with _ | n
    · rw [modify_file_content_zero (.addedClock f k) ls hkl]
    · rw [modify_file_content_eq (.addedClock f k) ls
            (show 1 ≤ (FileChange.addedClock f k).line from by
              show 1 ≤ k.line
              omega)]
      simp only [FileChange.line, FileChange.clock, hkl, Nat.add_sub_cancel]
      by_cases hrange : n < ls.length
      · rw [applyAt_add f k n ls hrange]
        rw [show keepFrom (nonAddTargets cs) 0
              (ls.take n ++ renderClockLine k :: ls.drop n) =
              keepFrom (nonAddTargets cs) 0 (ls.take n) ++ renderClockLine k :: ls.drop n from by
            rw [keepFrom_append, show (ls.take n).length = n from by rw [List.length_take]; omega,
                Nat.zero_add,
                keepFrom_all_lt _ n _ (fun p hp => by have := hplt p hp; omega)]]
        conv_lhs => rw [← List.take_append_drop n ls]
        rw [keepFrom_append, show (ls.take n).length = n from by rw [List.length_take]; omega,
            Nat.zero_add,
            keepFrom_all_lt _ n _ (fun p hp => by have := hplt p hp; omega)]
        exact List.Sublist.append (List.Sublist.refl _) (List.sublist_cons_self _ _)
      · rw [applyAt_oob _ _ _ (by omega)]
  · -- Update
    have hple : ∀ p ∈ nonAddTargets cs, p + 1 ≤ k.line := hle rfl
    rcases hkl : k.line with _ | n
    · rw [modify_file_content_zero (.updateClock f k) ls hkl,
          nonAddTargets_cons_zero (.updateClock f k) cs hkl]
    · rw [nonAddTargets_cons_nonadd (.updateClock f k) cs rfl
            (show 1 ≤ (FileChange.updateClock f k).line from by
              show 1 ≤ k.line
              omega)]
      rw [modify_file_content_eq (.updateClock f k) ls
            (show 1 ≤ (FileChange.updateClock f k).line from by
              show 1 ≤ k.line
              omega)]
      simp only [FileChange.line, FileChange.clock, hkl, Nat.add_sub_cancel]
      by_cases hrange : n < ls.length
      · rw [applyAt_update f k n ls hrange]
        rw [show keepFrom (nonAddTargets cs) 0
              (ls.take n ++ renderClockLine k :: ls.drop (n + 1)) =
              keepFrom (nonAddTargets cs) 0 (ls.take n) ++
                keepFrom (nonAddTargets cs) n (renderClockLine k :: ls.drop (n + 1)) from by
            rw [keepFrom_append, show (ls.take n).length = n from by rw [List.length_take]; omega,
                Nat.zero_add]]
        rw [keepFrom_take_cons_drop _ n ls hrange (List.mem_cons_self _ _)
            (fun p hp => by
              rcases List.mem_cons.mp hp with h | h
              · omega
              · have := hple p h; omega)]
        refine List.Sublist.append (keepFrom_cons_sublist _ _ _ _) ?_
        by_cases hnB : n ∈ nonAddTargets cs
        · simp only [keepFrom, if_pos hnB]
          rw [keepFrom_all_lt _ (n + 1) _ (fun p hp => by have := hple p hp; omega)]
        · simp only [keepFrom, if_neg hnB]
          rw [keepFrom_all_lt _ (n + 1) _ (fun p hp => by have := hple p hp; omega)]
          exact List.sublist_cons_self _ _
      · rw [applyAt_oob _ _ _ (by omega)]
        exact keepFrom_cons_sublist _ _ _ _

theorem frame_aux (cs : List FileChange) :
    ∀ ls : List String,
    cs.Pairwise (fun a b => fcLe b a) →
    cs.Pairwise (fun a b => ¬ delShares a b) →
    List.Sublist (keepFrom (nonAddTargets cs) 0 ls)
      (cs.foldl (fun acc c => c.modify_file_content acc) ls) := by
  induction cs with
  | nil =>
    intro ls _ _
    simp only [List.foldl_nil]
    rw [show nonAddTargets [] = [] from rfl, keepFrom_nil]
  | cons c cs ih =>
    intro ls hs hsh
    simp only [List.foldl_cons]
    exact (frame_step c cs ls (List.pairwise_cons.mp hs).1
        (List.pairwise_cons.mp hsh).1).trans
      (ih _ (List.pairwise_cons.mp hs).2 (List.pairwise_cons.mp hsh).2)

theorem nonAddTargets_perm {cs₁ cs₂ : List FileChange} (h : List.Perm cs₁ cs₂) :
    List.Perm (nonAddTargets cs₁) (nonAddTargets cs₂) :=
  (h.filter _).map _

/-- Claim C3 (amended): in a batch where no `Delete` shares its target line
with another non-`Add` edit, `apply_to_string` succeeds and every line not
targeted by a non-`Add` edit survives byte-identically, in order (the
`keepFrom`-sublist); and each single edit touches only its own physical
line — a `Delete` removes it closing the gap, an `Update` rewrites it in
place, an `Add` inserts the new line there pushing the original down. -/
theorem apply_to_string_frame :
    (∀ (f : String) (k : Clock) (ls : List String), 1 ≤ k.line → k.line ≤ ls.length →
      (FileChange.delete f k).modify_file_content ls =
        ls.take (k.line - 1) ++ ls.drop k.line)
    ∧ (∀ (f : String) (k : Clock) (ls : List String), 1 ≤ k.line → k.line ≤ ls.length →
      (FileChange.update f k).modify_file_content ls =
        ls.take (k.line - 1) ++ renderClockLine k :: ls.drop k.line)
    ∧ (∀ (f : String) (k : Clock) (ls : List String), 1 ≤ k.line → k.line ≤ ls.length →
      (FileChange.add f k).modify_file_content ls =
        ls.take (k.line - 1) ++ renderClockLine k :: ls.drop (k.line - 1))
    ∧ (∀ (changes : List FileChange) (ls : List String),
      (∀ a ∈ changes, ∀ b ∈ changes, a.file = b.file) →
      changes.Pairwise (fun a b => ¬ delShares a b) →
      ∃ out, FileChange.apply_to_string changes ls = .ok out ∧
        List.Sublist (keepFrom (nonAddTargets changes) 0 ls) out) := by
  refine ⟨?_, ?_, ?_, ?_⟩
  · intro f k ls h1 h2
    rw [show FileChange.delete f k = FileChange.deletedClock f k from rfl,
        modify_file_content_eq (FileChange.deletedClock f k) ls h1]
    simp only [FileChange.line, FileChange.clock]
    rw [applyAt_delete f k _ ls (by omega), show k.line - 1 + 1 = k.line from by omega]
  · intro f k ls h1 h2
    rw [show FileChange.update f k = FileChange.updateClock f k from rfl,
        modify_file_content_eq (FileChange.updateClock f k) ls h1]
    simp only [FileChange.line, FileChange.clock]
    rw [applyAt_update f k _ ls (by omega), show k.line - 1 + 1 = k.line from by omega]
  · intro f k ls h1 h2
    rw [show FileChange.add f k = FileChange.addedClock f k from rfl,
        modify_file_content_eq (FileChange.addedClock f k) ls h1]
    simp only [FileChange.line, FileChange.clock]
    rw [applyAt_add f k _ ls (by omega)]
  · intro changes ls hfile hsh
    rcases changes with _ | ⟨c, cs⟩
    · exact ⟨ls, rfl, by rw [show nonAddTargets [] = [] from rfl, keepFrom_nil]⟩
    · have hperm := sortedChanges_perm (c :: cs)
      rcases hs : sortedChanges (c :: cs) with _ | ⟨c0, rest⟩
      · rw [hs] at hperm
        exact absurd hperm.length_eq (by simp)
      · rw [hs] at hperm
        have hall : rest.all (fun x => x.file == c0.file) = true := by
          rw [List.all_eq_true]
          intro x hx
          have hx1 : x ∈ c :: cs := hperm.mem_iff.mp (by simp [hx])
          have hc0 : c0 ∈ c :: cs := hperm.mem_iff.mp (by simp)
          exact beq_iff_eq.mpr (hfile x hx1 c0 hc0)
        refine ⟨(c0 :: rest).foldl (fun acc e => e.modify_file_content acc) ls, ?_, ?_⟩
        · simp only [FileChange.apply_to_string, hs, hall, if_true]
        · have hdesc : (sortedChanges (c :: cs)).Pairwise (fun a b => fcLe b a) := by
            unfold sortedChanges
            rw [List.pairwise_reverse]
            exact List.sorted_insertionSort fcLe (c :: cs)
          have hsh2 : (sortedChanges (c :: cs)).Pairwise (fun a b => ¬ delShares a b) :=
            (List.Perm.pairwise_iff
              (fun h hd => h ((delShares_symm _ _).mpr hd))
              (sortedChanges_perm (c :: cs))).mpr hsh
          rw [hs] at hdesc hsh2
          rw [keepFrom_congr (nonAddTargets (c :: cs)) (nonAddTargets (c0 :: rest)) 0 ls
              (fun p => Iff.symm (List.Perm.mem_iff (nonAddTargets_perm hperm)))]
          exact frame_aux (c0 :: rest) ls hdesc hsh2

/-- Witness for C3: each single-edit shape at a concrete file, and a concrete
collision-free batch (a `Delete` of line 2 and an `Update` of line 4) whose
application keeps all untargeted lines as a sublist of the output. -/
theorem apply_to_string_frame_witness :
    (FileChange.delete "f" ⟨2, 0, none, 0, some 1, .inactive⟩).modify_file_content
        ["a", "b", "c"] = ["a", "b", "c"].take 1 ++ ["a", "b", "c"].drop 2 ∧
    (FileChange.update "f" ⟨2, 0, none, 0, some 1, .inactive⟩).modify_file_content
        ["a", "b", "c"] =
      ["a", "b", "c"].take 1 ++
        renderClockLine ⟨2, 0, none, 0, some 1, .inactive⟩ :: ["a", "b", "c"].drop 2 ∧
    (FileChange.add "f" ⟨2, 0, none, 0, some 1, .inactive⟩).modify_file_content
        ["a", "b", "c"] =
      ["a", "b", "c"].take 1 ++
        renderClockLine ⟨2, 0, none, 0, some 1, .inactive⟩ :: ["a", "b", "c"].drop 1 ∧
    ∃ out,
      FileChange.apply_to_string
          [FileChange.delete "f" ⟨2, 0, none, 0, some 1, .inactive⟩,
           FileChange.update "f" ⟨4, 0, none, 2, some 3, .inactive⟩]
          ["a", "b", "c", "d", "e"] = .ok out ∧
      List.Sublist
        (keepFrom
          (nonAddTargets
            [FileChange.delete "f" ⟨2, 0, none, 0, some 1, .inactive⟩,
             FileChange.update "f" ⟨4, 0, none, 2, some 3, .inactive⟩]) 0
          ["a", "b", "c", "d", "e"]) out :=
  ⟨apply_to_string_frame.1 "f" _ _ (by decide) (by decide),
   apply_to_string_frame.2.1 "f" _ _ (by decide) (by decide),
   apply_to_string_frame.2.2.1 "f" _ _ (by decide) (by decide),
   apply_to_string_frame.2.2.2 _ _ (by decide) (by decide)⟩

/-- Counterexample to C3 as stated: two `Delete` edits of the same line — the
second deletion, applied after the first, removes the line that slid into
the target position, so the untargeted line `"b"` (line 2) vanishes from the
output instead of surviving byte-identically. -/
theorem apply_to_string_frame_counterexample :
    FileChange.apply_to_string
        [FileChange.delete "f" ⟨1, 0, none, 0, some 1, .inactive⟩,
         FileChange.delete "f" ⟨1, 0, none, 0, some 1, .inactive⟩] ["a", "b"] =
      Except.ok ([] : List String) ∧
    keepFrom
        (nonAddTargets
          [FileChange.delete "f" ⟨1, 0, none, 0, some 1, .inactive⟩,
           FileChange.delete "f" ⟨1, 0, none, 0, some 1, .inactive⟩]) 0 ["a", "b"] =
      ["b"] ∧
    ¬ List.Sublist ["b"] ([] : List String) :=
  ⟨rfl, rfl, by decide⟩

/-- Claim C9 (amended): `Headline::try_from` succeeds exactly on lines that
contain a marker `*` somewhere with at least one more character after the
first marker (the regex is unanchored, so the match may start mid-line); the
level is the length of the first marker run, minus one when that run reaches
the end of the line (the regex gives one star back to the title). -/
theorem headline_try_from_spec :
    (∀ s : String,
      (headlineTryFrom s).isSome = true ↔
        ∃ i, i + 1 < s.data.length ∧ s.data[i]? = some '*')
    ∧ (∀ (s : String) (h : Headline), headlineTryFrom s = some h →
        h.level =
          (if s.data.findIdx (fun c => c = '*') +
              ((s.data.drop (s.data.findIdx (fun c => c = '*'))).takeWhile
                (fun c => c = '*')).length = s.data.length then
            ((s.data.drop (s.data.findIdx (fun c => c = '*'))).takeWhile
              (fun c => c = '*')).length - 1
          else
            ((s.data.drop (s.data.findIdx (fun c => c = '*'))).takeWhile
              (fun c => c = '*')).length)) := by
  have hrunpos : ∀ (cs : List Char), cs.findIdx (fun c => c = '*') < cs.length →
      1 ≤ ((cs.drop (cs.findIdx (fun c => c = '*'))).takeWhile (fun c => c = '*')).length := by
    intro cs hp
    rw [List.drop_eq_getElem_cons hp, List.takeWhile_cons,
        show (decide (cs[cs.findIdx (fun c => c = '*')] = '*')) = true from
          @List.findIdx_getElem _ _ _ hp]
    simp
  have hrunle : ∀ (cs : List Char) (p : Nat),
      ((cs.drop p).takeWhile (fun c => c = '*')).length ≤ cs.length - p := by
    intro cs p
    calc ((cs.drop p).takeWhile (fun c => c = '*')).length
        ≤ (cs.drop p).length := (List.takeWhile_sublist _).length_le
      _ = cs.length - p := List.length_drop _ _
  constructor
  · intro s
    simp only [headlineTryFrom]
    by_cases hp : s.data.findIdx (fun c => c = '*') < s.data.length
    · rw [if_pos hp]
      have hrun1 := hrunpos s.data hp
      have hrun2 := hrunle s.data (s.data.findIdx (fun c => c = '*'))
      have hstar : s.data[s.data.findIdx (fun c => c = '*')] = '*' := by
        have := @List.findIdx_getElem _ _ _ hp
        simpa using this
      by_cases ht : ((s.data.drop (s.data.findIdx (fun c => c = '*'))).drop
          (((s.data.drop (s.data.findIdx (fun c => c = '*'))).takeWhile
            (fun c => c = '*')).length)).isEmpty = true
      · rw [if_pos ht]
        have hlen : s.data.findIdx (fun c => c = '*') +
            ((s.data.drop (s.data.findIdx (fun c => c = '*'))).takeWhile
              (fun c => c = '*')).length = s.data.length := by
          rw [List.isEmpty_iff_length_eq_zero, List.length_drop, List.length_drop] at ht
          omega
        by_cases hrun : 2 ≤ ((s.data.drop (s.data.findIdx (fun c => c = '*'))).takeWhile
            (fun c => c = '*')).length
        · rw [if_pos hrun]
          simp only [Option.isSome_some, true_iff]
          refine ⟨s.data.findIdx (fun c => c = '*'), by omega, ?_⟩
          rw [List.getElem?_eq_getElem hp, hstar]
        · rw [if_neg hrun]
          simp only [Option.isSome_none, Bool.false_eq_true, false_iff]
          rintro ⟨i, hi1, hi2⟩
          rcases Nat.lt_trichotomy i (s.data.findIdx (fun c => c = '*')) with hlt | heq | hgt
          · have := List.not_of_lt_findIdx hlt
            rw [List.getElem?_eq_getElem (by omega)] at hi2
            simp_all
          · omega
          · have : s.data.length ≤ i + 1 := by omega
            omega
      · rw [if_neg ht]
        simp only [Option.isSome_some, true_iff]
        rw [List.isEmpty_iff_length_eq_zero, List.length_drop, List.length_drop] at ht
        refine ⟨s.data.findIdx (fun c => c = '*'), by omega, ?_⟩
        rw [List.getElem?_eq_getElem hp, hstar]
    · rw [if_neg hp]
      simp only [Option.isSome_none, Bool.false_eq_true, false_iff]
      rintro ⟨i, hi1, hi2⟩
      have hple : s.data.findIdx (fun c => c = '*') ≤ s.data.length :=
        List.findIdx_le_length (fun c : Char => c = '*')
      have hi : i < s.data.length := by omega
      rcases Nat.lt_trichotomy i (s.data.findIdx (fun c => c = '*')) with hlt | heq | hgt
      · have := List.not_of_lt_findIdx hlt
        rw [List.getElem?_eq_getElem hi] at hi2
        simp_all
      · omega
      · omega
  · intro s h hsome
    simp only [headlineTryFrom] at hsome
    by_cases hp : s.data.findIdx (fun c => c = '*') < s.data.length
    · rw [if_pos hp] at hsome
      have hrun1 := hrunpos s.data hp
      have hrun2 := hrunle s.data (s.data.findIdx (fun c => c = '*'))
      by_cases ht : ((s.data.drop (s.data.findIdx (fun c => c = '*'))).drop
          (((s.data.drop (s.data.findIdx (fun c => c = '*'))).takeWhile
            (fun c => c = '*')).length)).isEmpty = true
      · rw [if_pos ht] at hsome
        have hlen : s.data.findIdx (fun c => c = '*') +
            ((s.data.drop (s.data.findIdx (fun c => c = '*'))).takeWhile
              (fun c => c = '*')).length = s.data.length := by
          rw [List.isEmpty_iff_length_eq_zero, List.length_drop, List.length_drop] at ht
          omega
        by_cases hrun : 2 ≤ ((s.data.drop (s.data.findIdx (fun c => c = '*'))).takeWhile
            (fun c => c = '*')).length
        · rw [if_pos hrun] at hsome
          rw [if_pos hlen]
          cases hsome
          rfl
        · rw [if_neg hrun] at hsome
          exact absurd hsome (by simp)
      · rw [if_neg ht] at hsome
        have hlen : ¬ (s.data.findIdx (fun c => c = '*') +
            ((s.data.drop (s.data.findIdx (fun c => c = '*'))).takeWhile
              (fun c => c = '*')).length = s.data.length) := by
          rw [List.isEmpty_iff_length_eq_zero, List.length_drop, List.length_drop] at ht
          omega
        rw [if_neg hlen]
        cases hsome
        rfl
    · rw [if_neg hp] at hsome
      exact absurd hsome (by simp)

/-- Witness for C9: `"x* y"` parses as a headline of level 1 (star run of
length one, not at the end of the line). -/
theorem headline_try_from_spec_witness :
    ((headlineTryFrom "x* y").isSome = true ↔
      ∃ i, i + 1 < "x* y".data.length ∧ "x* y".data[i]? = some '*') ∧
    ∀ h : Headline, headlineTryFrom "x* y" = some h → h.level = 1 :=
  ⟨headline_try_from_spec.1 "x* y",
   fun h hsome => (headline_try_from_spec.2 "x* y" h hsome).trans (by decide)⟩

theorem head_dropWhile_false {α : Type} (p : α → Bool) :
    ∀ (l : List α) (x : α), (l.dropWhile p).head? = some x → p x = false := by
  intro l
  induction l with
  | nil =>
    intro x h
    simp [List.dropWhile] at h
  | cons a t ih =>
    intro x h
    rw [List.dropWhile_cons] at h
    by_cases hp : p a = true
    · rw [if_pos hp] at h
      exact ih x h
    · rw [if_neg hp] at h
      simp only [List.head?_cons, Option.some.injEq] at h
      rw [← h]
      simpa using hp

theorem headlineTryFrom_parent (s : String) (h : Headline)
    (hsome : headlineTryFrom s = some h) : h.parent = 0 := by
  simp only [headlineTryFrom] at hsome
  split at hsome
  · split at hsome
    · split at hsome
      · cases hsome
        rfl
      · exact absurd hsome (by simp)
    · cases hsome
      rfl
  · exact absurd hsome (by simp)

theorem StackInv.mono {st : ParseState} {n m : Nat} (h : StackInv st n) (hle : n ≤ m) :
    StackInv st m := by
  obtain ⟨h1, h2, h3⟩ := h
  exact ⟨fun e he => by
    obtain ⟨hh, ha, hb, hc⟩ := h1 e he
    exact ⟨hh, ha, hb, by omega⟩, h2, h3⟩

theorem StackInv.same {st st' : ParseState} {n : Nat}
    (hH : st'.headlines = st.headlines) (hP : st'.parents = st.parents)
    (h : StackInv st n) : StackInv st' n := by
  unfold StackInv
  rw [hH, hP]
  exact h

/-- The two concrete shapes of `pushHeadline`, by whether the popped stack
is empty. -/
theorem pushHeadline_eq_none (st : ParseState) (n : Nat) (h0 : Headline)
    (hq : (st.parents.dropWhile fun p => decide (h0.level ≤ p.2)).head? = none) :
    pushHeadline st n h0 =
      { st with
        headlines := st.headlines ++ [{ h0 with line := n }],
        parents := (st.headlines.length, h0.level) ::
          st.parents.dropWhile fun p => decide (h0.level ≤ p.2) } := by
  simp [pushHeadline, hq]

theorem pushHeadline_eq_some (st : ParseState) (n : Nat) (h0 : Headline)
    (idx lvl : Nat)
    (hq : (st.parents.dropWhile fun p => decide (h0.level ≤ p.2)).head? = some (idx, lvl)) :
    pushHeadline st n h0 =
      { st with
        headlines := st.headlines ++ [{ h0 with line := n, parent := idx }],
        parents := (st.headlines.length, h0.level) ::
          st.parents.dropWhile fun p => decide (h0.level ≤ p.2) } := by
  simp [pushHeadline, hq]

/-- `pushHeadline` preserves the stack invariant. -/
theorem stackInv_push (st : ParseState) (n : Nat) (h0 : Headline)
    (hp0 : h0.parent = 0) (hinv : StackInv st n) :
    StackInv (pushHeadline st n h0) (n + 1) := by
  obtain ⟨hent, hpw, hgoal⟩ := hinv
  have hsub : List.Sublist (st.parents.dropWhile fun p => decide (h0.level ≤ p.2))
      st.parents := List.dropWhile_sublist _
  have hstackmem : ∀ e ∈ (st.parents.dropWhile fun p => decide (h0.level ≤ p.2)),
      ∃ hh, st.headlines.get? e.1 = some hh ∧ hh.level = e.2 ∧ hh.line < n :=
    fun e he => hent e (hsub.subset he)
  have hstackpw : (st.parents.dropWhile fun p => decide (h0.level ≤ p.2)).Pairwise
      (fun a b => b.1 < a.1 ∧ b.2 < a.2) := hpw.sublist hsub
  have hstacklt : ∀ e ∈ (st.parents.dropWhile fun p => decide (h0.level ≤ p.2)),
      e.2 < h0.level := by
    intro e he
    rcases hst : st.parents.dropWhile fun p => decide (h0.level ≤ p.2) with _ | ⟨y, ys⟩
    · rw [hst] at he
      simp at he
    · have hy : y.2 < h0.level := by
        have hq : (st.parents.dropWhile fun p => decide (h0.level ≤ p.2)).head? = some y := by
          rw [hst]
          rfl
        have := head_dropWhile_false _ _ _ hq
        simpa using this
      rw [hst] at he
      rcases List.mem_cons.mp he with rfl | hey
      · exact hy
      · rw [hst] at hstackpw
        have := (List.pairwise_cons.mp hstackpw).1 e hey
        omega
  have main : ∀ (newh : Headline), newh.level = h0.level → newh.line = n →
      (newh.parent = 0 ∨
        ∃ hh, st.headlines.get? newh.parent = some hh ∧ newh.parent < st.headlines.length ∧
          hh.level < h0.level ∧ hh.line < n) →
      StackInv
        { st with
          headlines := st.headlines ++ [newh],
          parents := (st.headlines.length, h0.level) ::
            st.parents.dropWhile fun p => decide (h0.level ≤ p.2) } (n + 1) := by
    intro newh hlev hline hpar
    have hgetnew : ∀ i, i < st.headlines.length →
        (st.headlines ++ [newh]).get? i = st.headlines.get? i :=
      fun i hi => List.get?_append hi
    have hgetlast : (st.headlines ++ [newh]).get? st.headlines.length = some newh :=
      List.get?_concat_length _ _
    refine ⟨?_, ?_, ?_⟩
    · intro e he
      rcases List.mem_cons.mp he with rfl | hes
    -- the freshly pushed entry points at the appended headline
      · exact ⟨newh, hgetlast, by rw [hlev], by rw [hline]; omega⟩
      · obtain ⟨hh, ha, hb, hc⟩ := hstackmem e hes
        have hlt : e.1 < st.headlines.length := (List.get?_eq_some.mp ha).1
        exact ⟨hh, by rw [hgetnew e.1 hlt]; exact ha, hb, by omega⟩
    · rw [List.pairwise_cons]
      constructor
      · intro e he
        obtain ⟨hh, ha, _, _⟩ := hstackmem e he
        exact ⟨(List.get?_eq_some.mp ha).1, hstacklt e he⟩
      · exact hstackpw
    · intro k h hk
      rcases Nat.lt_trichotomy k st.headlines.length with hlt | heq | hgt
      · rw [hgetnew k hlt] at hk
        rcases hgoal k h hk with hp | ⟨hplt, hp, hpget, hpl, hpl2⟩
        · exact Or.inl hp
        · exact Or.inr ⟨hplt, hp, by rw [hgetnew h.parent (by omega)]; exact hpget,
            hpl, hpl2⟩
      · subst heq
        rw [hgetlast] at hk
        cases hk
        rcases hpar with hp | ⟨hh, ha, hb, hc, hd⟩
        · exact Or.inl hp
        · refine Or.inr ⟨hb, hh, ?_, ?_, ?_⟩
          · rw [hgetnew newh.parent hb]
            exact ha
          · rw [hlev]
            exact hc
          · rw [hline]
            exact hd
      · rw [List.get?_eq_none.mpr (by simp; omega)] at hk
        cases hk
  rcases hq : (st.parents.dropWhile fun p => decide (h0.level ≤ p.2)).head? with _ | ⟨idx, lvl⟩
  · rw [pushHeadline_eq_none st n h0 hq]
    exact main _ rfl rfl (Or.inl hp0)
  · rw [pushHeadline_eq_some st n h0 idx lvl hq]
    refine main _ rfl rfl (Or.inr ?_)
    have hx : (idx, lvl) ∈ st.parents.dropWhile fun p => decide (h0.level ≤ p.2) :=
      List.mem_of_mem_head? hq
    obtain ⟨hh, ha, hb, hc⟩ := hstackmem _ hx
    have hlt := (List.get?_eq_some.mp ha).1
    have hlev := hstacklt _ hx
    exact ⟨hh, ha, hlt, by simp at hb hlev ⊢; omega, hc⟩

/-- The parser's line step preserves the stack invariant. -/
theorem parseLineStep_inv (st st' : ParseState) (n : Nat) (line : String)
    (hinv : StackInv st n) (hstep : parseLineStep st n line = some st') :
    StackInv st' (n + 1) := by
  rcases hcb : st.currentBlock with _ | block
  · simp only [parseLineStep, hcb] at hstep
    rcases hbt : blockTryFrom line with _ | kind
    · rw [hbt] at hstep
      rcases hht : headlineTryFrom line with _ | h0
      · rw [hht] at hstep
        rcases hct : clockTryFrom line with c0 | _ | _ <;> rw [hct] at hstep
        · rcases hph : st.parents.head? with _ | e <;> rw [hph] at hstep <;>
            cases hstep <;>
            exact StackInv.same rfl rfl (StackInv.mono hinv (by omega))
        · cases hstep
          exact StackInv.same rfl rfl (StackInv.mono hinv (by omega))
        · cases hstep
      · rw [hht] at hstep
        cases hstep
        exact stackInv_push st n h0 (headlineTryFrom_parent line h0 hht) hinv
    · rw [hbt] at hstep
      cases hstep
      exact StackInv.same rfl rfl (StackInv.mono hinv (by omega))
  · simp only [parseLineStep, hcb] at hstep
    rcases hpe : block.parse_end line n with _ | done <;> rw [hpe] at hstep <;>
      cases hstep <;>
      exact StackInv.same rfl rfl (StackInv.mono hinv (by omega))

theorem parseLinesAux_inv :
    ∀ (lsx : List String) (st : ParseState) (n : Nat) (stf : ParseState),
      parseLinesAux st n lsx = some stf → StackInv st n →
      StackInv stf (n + lsx.length) := by
  intro lsx
  induction lsx with
  | nil =>
    intro st n stf haux hinv
    cases haux
    simpa using hinv
  | cons l ls ih =>
    intro st n stf haux hinv
    simp only [parseLinesAux] at haux
    rcases hstep : parseLineStep st n l with _ | st1
    · rw [hstep] at haux
      cases haux
    · rw [hstep] at haux
      have := ih st1 (n + 1) stf haux (parseLineStep_inv st st1 n l hinv hstep)
      simpa [Nat.add_comm, Nat.add_assoc, Nat.add_left_comm] using this

/-- Claim C7: in every document `OrgDocument::parse` produces, a headline's
parent is the default `0` (no enclosing heading, or the first headline) or
the index of an earlier headline with strictly smaller level and strictly
smaller line number, so the parent links form a valid forest. -/
theorem parse_parent_forest (file content : String) (doc : OrgDocument)
    (hparse : OrgDocument.parse file content = some doc) :
    ∀ k h, doc.headlines.get? k = some h →
      h.parent = 0 ∨ (h.parent < k ∧
        ∃ hp, doc.headlines.get? h.parent = some hp ∧
          hp.level < h.level ∧ hp.line < h.line) := by
  unfold OrgDocument.parse at hparse
  rcases haux : parseLinesAux ⟨[], [], [], [], none⟩ 1 (rustLines content) with _ | stf
  · rw [haux] at hparse
    cases hparse
  · rw [haux] at hparse
    cases hparse
    have hinit : StackInv ⟨[], [], [], [], none⟩ 1 := by
      refine ⟨?_, ?_, ?_⟩
      · intro e he
        simp at he
      · simp
      · intro k h hk
        simp [ParseState.headlines] at hk
    exact (parseLinesAux_inv (rustLines content) _ 1 stf haux hinit).2.2

/-- Witness for C7: the spec's scenario 4 — `* A / ** B / *** C / ** D`
parses, and the level-2 headline `D` (index 3) gets the default parent `0`,
i.e. the level-1 headline `A`, not `C`. -/
theorem parse_parent_forest_witness :
    (⟨4, 0, 2, "D", none⟩ : Headline).parent = 0 ∨
      ((⟨4, 0, 2, "D", none⟩ : Headline).parent < 3 ∧
        ∃ hp, ([⟨1, 0, 1, "A", none⟩, ⟨2, 0, 2, "B", none⟩, ⟨3, 1, 3, "C", none⟩,
                ⟨4, 0, 2, "D", none⟩] : List Headline).get?
            (⟨4, 0, 2, "D", none⟩ : Headline).parent = some hp ∧
          hp.level < (⟨4, 0, 2, "D", none⟩ : Headline).level ∧
          hp.line < (⟨4, 0, 2, "D", none⟩ : Headline).line) :=
  parse_parent_forest "f" "* A\n** B\n*** C\n** D"
    ⟨"f", [⟨1, 0, 1, "A", none⟩, ⟨2, 0, 2, "B", none⟩, ⟨3, 1, 3, "C", none⟩,
           ⟨4, 0, 2, "D", none⟩], []⟩ rfl 3 _ rfl

/-- Claim C1 (failing input): two parsed documents `a.org` and `b.org`, each
with its clock on line 2, whose clocks overlap.  The `Hash` impl orders the
two clocks by `clock1.line < clock2.line`, which cannot canonicalise a
cross-file pair with equal line numbers: the pair discovered as `(A, B)` and
as `(B, A)` hashes differently, so `find_conflicts` reports the same
unordered pair twice — the second reported conflict is literally the
reversal of the first — contradicting the mandatory deduplication (and the
source's own comment `Don't report duplicates when finding reversed pair`). -/
theorem find_conflicts_duplicate_pair :
    (OrgDocument.parse "a.org"
        "* a\nCLOCK: [2022-12-12 Mon 10:00]--[2022-12-12 Mon 11:00]" =
      some ⟨"a.org", [⟨1, 0, 1, "a", none⟩],
            [⟨2, 0, none, 19338 * 1440 + 600, some (19338 * 1440 + 660), .inactive⟩]⟩) ∧
    (OrgDocument.parse "b.org"
        "* b\nCLOCK: [2022-12-12 Mon 10:30]--[2022-12-12 Mon 11:30]" =
      some ⟨"b.org", [⟨1, 0, 1, "b", none⟩],
            [⟨2, 0, none, 19338 * 1440 + 630, some (19338 * 1440 + 690), .inactive⟩]⟩) ∧
    Clock.overlaps idOff 0
      ⟨2, 0, none, 19338 * 1440 + 600, some (19338 * 1440 + 660), .inactive⟩
      ⟨2, 0, none, 19338 * 1440 + 630, some (19338 * 1440 + 690), .inactive⟩ = true ∧
    ClockConflict.find_conflicts idOff 0
      [⟨"a.org", [⟨1, 0, 1, "a", none⟩],
        [⟨2, 0, none, 19338 * 1440 + 600, some (19338 * 1440 + 660), .inactive⟩]⟩,
       ⟨"b.org", [⟨1, 0, 1, "b", none⟩],
        [⟨2, 0, none, 19338 * 1440 + 630, some (19338 * 1440 + 690), .inactive⟩]⟩] =
      [⟨⟨2, 0, none, 19338 * 1440 + 600, some (19338 * 1440 + 660), .inactive⟩,
        ⟨2, 0, none, 19338 * 1440 + 630, some (19338 * 1440 + 690), .inactive⟩,
        ⟨1, 0, 1, "a", none⟩, ⟨1, 0, 1, "b", none⟩, "a.org", "b.org"⟩,
       ⟨⟨2, 0, none, 19338 * 1440 + 630, some (19338 * 1440 + 690), .inactive⟩,
        ⟨2, 0, none, 19338 * 1440 + 600, some (19338 * 1440 + 660), .inactive⟩,
        ⟨1, 0, 1, "b", none⟩, ⟨1, 0, 1, "a", none⟩, "b.org", "a.org"⟩] ∧
    ClockConflict.canonKey
        ⟨⟨2, 0, none, 19338 * 1440 + 600, some (19338 * 1440 + 660), .inactive⟩,
         ⟨2, 0, none, 19338 * 1440 + 630, some (19338 * 1440 + 690), .inactive⟩,
         ⟨1, 0, 1, "a", none⟩, ⟨1, 0, 1, "b", none⟩, "a.org", "b.org"⟩ ≠
      ClockConflict.canonKey
        ⟨⟨2, 0, none, 19338 * 1440 + 630, some (19338 * 1440 + 690), .inactive⟩,
         ⟨2, 0, none, 19338 * 1440 + 600, some (19338 * 1440 + 660), .inactive⟩,
         ⟨1, 0, 1, "b", none⟩, ⟨1, 0, 1, "a", none⟩, "b.org", "a.org"⟩ := by
  refine ⟨rfl, rfl, rfl, ?_, ?_⟩ <;> decide

/-- Counterexample to C9 as stated: the line `"x* y"` does not match the
anchored grammar `^(MARKER+)\s*(.+)$` (it does not begin with a marker), yet
`Headline::try_from` succeeds on it, because `HEADLINE_RE` is unanchored and
matches at the mid-line star. -/
theorem headline_anchored_counterexample :
    specAnchoredHeadline "x* y" = false ∧ (headlineTryFrom "x* y").isSome = true := by
  constructor <;> decide

/-- Counterexample to C4 as stated: two `Add` edits at the same line survive
the sort in their submission order (the comparator ties and the sort is
stable), so the two submission orders insert the two lines in opposite
order and the outputs differ. -/
theorem apply_to_string_order_dependent_counterexample :
    (FileChange.apply_to_string
        [FileChange.add "f" ⟨1, 0, none, 0, some 1, .inactive⟩,
         FileChange.add "f" ⟨1, 0, none, 2, some 3, .inactive⟩] ["x"]).toOption ≠
      (FileChange.apply_to_string
        [FileChange.add "f" ⟨1, 0, none, 2, some 3, .inactive⟩,
         FileChange.add "f" ⟨1, 0, none, 0, some 1, .inactive⟩] ["x"]).toOption := by
  decide

end OrgLinter
